import Mathlib

/-!
Verification of the frz repository engine against its specification.

Each section embeds part of the C++ source (shallow embedding: pure
functions become Lean functions, stateful code becomes explicit state
passing, `std::optional` / exceptions become `Option` / `Except`) and
proves the specified properties about the embedded definitions.
-/

namespace Frz

/-! ## Base-32 codec (src/base32.hh, src/hash.hh)

`HashAndSize<HashBits>` keeps a digest of `HashBits = 8 * numBytes` bits
(modelled as a list of `numBytes` byte values) together with an
`std::int64_t` size.  We embed `ToBase32` and `FromBase32` byte-for-byte
from `src/hash.hh`, and the digit tables from `src/base32.hh`. -/

/-- Embeds `kBase32Digits` from src/base32.hh: the 32-character digit set. -/
def kBase32Digits : List Char := "0123456789abcdefghjkmnpqrstuwxyz".toList

/-- Character at index `n` of `kBase32Digits` (the C++ indexing
`kBase32Digits[n]`, always used with `n < 32`). -/
def base32Digit (n : Nat) : Char := kBase32Digits.getD n '?'

/-- Embeds `Base32ToVal` from src/base32.hh. -/
def Base32ToVal (c : Char) : Option Nat :=
  match c with
  | '0' => .some 0
  | '1' => .some 1
  | '2' => .some 2
  | '3' => .some 3
  | '4' => .some 4
  | '5' => .some 5
  | '6' => .some 6
  | '7' => .some 7
  | '8' => .some 8
  | '9' => .some 9
  | 'a' | 'A' => .some 10
  | 'b' | 'B' => .some 11
  | 'c' | 'C' => .some 12
  | 'd' | 'D' => .some 13
  | 'e' | 'E' => .some 14
  | 'f' | 'F' => .some 15
  | 'g' | 'G' => .some 16
  | 'h' | 'H' => .some 17
  | 'j' | 'J' => .some 18
  | 'k' | 'K' => .some 19
  | 'm' | 'M' => .some 20
  | 'n' | 'N' => .some 21
  | 'p' | 'P' => .some 22
  | 'q' | 'Q' => .some 23
  | 'r' | 'R' => .some 24
  | 's' | 'S' => .some 25
  | 't' | 'T' => .some 26
  | 'u' | 'U' => .some 27
  | 'w' | 'W' => .some 28
  | 'x' | 'X' => .some 29
  | 'y' | 'Y' => .some 30
  | 'z' | 'Z' => .some 31
  | _ => none

/-- Embeds `RoundUp` from src/math.hh: `a` rounded up to the nearest
multiple of `b`. -/
def RoundUp (a b : Nat) : Nat := (a + b - 1) / b * b

/-- Fuel-driven helper for `bitWidth`; the fuel is an upper bound on the
recursion depth. -/
def bitWidthAux : Nat → Nat → Nat
  | 0, _ => 0
  | fuel + 1, n => if n = 0 then 0 else bitWidthAux fuel (n / 2) + 1

/-- Number of bits needed to represent `n` (`0` for `n = 0`).  Written
with explicit fuel so that it evaluates by kernel reduction. -/
def bitWidth (n : Nat) : Nat := bitWidthAux n n

/-- The C++ `std::countl_zero` on a `uint64_t` value: `64` minus the bit
width of the value. -/
def clz64 (v : Nat) : Nat := 64 - bitWidth v

/-- Embeds the 8-digit output of one whole 5-byte group in
`HashAndSize::ToBase32` (src/hash.hh): the digits
`kBase32Digits[(n >> 35) & 0x1f], ..., kBase32Digits[(n >> 0) & 0x1f]`. -/
def hashGroupDigits (n : Nat) : List Char :=
  [base32Digit ((n >>> 35) &&& 0x1f),
   base32Digit ((n >>> 30) &&& 0x1f),
   base32Digit ((n >>> 25) &&& 0x1f),
   base32Digit ((n >>> 20) &&& 0x1f),
   base32Digit ((n >>> 15) &&& 0x1f),
   base32Digit ((n >>> 10) &&& 0x1f),
   base32Digit ((n >>> 5) &&& 0x1f),
   base32Digit ((n >>> 0) &&& 0x1f)]

/-- Embeds the first loop of `HashAndSize::ToBase32`: convert all whole
groups of 5 hash bytes (indices `i < RoundDown(size, 5)`, step 5) to
groups of 8 base-32 digits; returns those digits together with the 0-4
leftover bytes that the loop does not consume. -/
def toBase32Groups : List Nat → List Char × List Nat
  | b0 :: b1 :: b2 :: b3 :: b4 :: rest =>
    let n : Nat := (b0 <<< 32) ||| (b1 <<< 24) ||| (b2 <<< 16) ||| (b3 <<< 8) ||| b4
    let r := toBase32Groups rest
    (hashGroupDigits n ++ r.1, r.2)
  | rest => ([], rest)

/-- Embeds the final loop of `HashAndSize::ToBase32`: convert the
`bits/5`-digit tail number `n` to base-32 digits, digit `i` being
`kBase32Digits[(n >> (bits - 5*i - 5)) & 0x1f]`. -/
def tailDigits (n bits : Nat) : List Char :=
  (List.range (bits / 5)).map (fun i => base32Digit ((n >>> (bits - 5 * i - 5)) &&& 0x1f))

/-- Embeds `HashAndSize::ToBase32` (src/hash.hh).  The digest is
`hashBytes` (each entry a byte value); `size` is the nonnegative
`std::int64_t` size viewed as a natural number. -/
def ToBase32 (hashBytes : List Nat) (size : Nat) : List Char :=
  let HashBits := 8 * hashBytes.length
  let sizeBits := RoundUp (64 - clz64 size + HashBits) 5 - HashBits
  let g := toBase32Groups hashBytes
  let n0 : Nat := g.2.foldl (fun n b => (n <<< 8) ||| b) 0
  let bits0 := 8 * g.2.length
  let n : Nat := (n0 <<< sizeBits) ||| size
  let bits := bits0 + sizeBits
  g.1 ++ tailDigits n bits

/-- Embeds the `while (bits_in_value < 8)` loop of `get_byte` inside
`HashAndSize::FromBase32` (src/hash.hh), together with the byte
extraction that follows it.  State: remaining input, the `uint64_t`
accumulator `value` (kept reduced modulo `2^64`), and `bits_in_value`.
Returns `(byte, value', bits_in_value', remaining input)`, or `none`
when the C++ code would set `error` (input exhausted or a character
outside the digit set).  The mask `value &= ~(~uint64_t{0} <<
bits_in_value)` keeps the low `bits_in_value` bits, i.e. is `&&&
(2 ^ bits_in_value - 1)`. -/
def getByteLoop : List Char → Nat → Nat → Option (Nat × Nat × Nat × List Char)
  | [], value, bits =>
    if bits < 8 then none
    else some (value >>> (bits - 8), value &&& (2 ^ (bits - 8) - 1), bits - 8, [])
  | c :: rest, value, bits =>
    if bits < 8 then
      match Base32ToVal c with
      | none => none
      | some d => getByteLoop rest (((value <<< 5) ||| d) % 2 ^ 64) (bits + 5)
    else
      some (value >>> (bits - 8), value &&& (2 ^ (bits - 8) - 1), bits - 8, c :: rest)

/-- Embeds the `for (std::byte& b : hash_bytes) b = get_byte();` loop of
`HashAndSize::FromBase32`: read `count` bytes from the digit stream.
Returns the bytes, the final `(value, bits_in_value)` accumulator state
and the remaining input. -/
def readHashBytes : Nat → List Char → Nat → Nat →
    Option (List Nat × Nat × Nat × List Char)
  | 0, input, value, bits => some ([], value, bits, input)
  | count + 1, input, value, bits =>
    match getByteLoop input value bits with
    | none => none
    | some (b, v, bi, rest) =>
      match readHashBytes count rest v bi with
      | none => none
      | some (bs, v2, bi2, rest2) => some (b :: bs, v2, bi2, rest2)

/-- Embeds the size loop of `HashAndSize::FromBase32`: for every
remaining input character, require a valid digit and
`std::countl_zero(value) >= 6`, then shift the digit in
(`value = (value << 5) | *d`, on `uint64_t`) and add 5 to
`bits_in_value`. -/
def readSize (input : List Char) (value bits : Nat) : Option (Nat × Nat) :=
  match input with
  | [] => some (value, bits)
  | c :: rest =>
    match Base32ToVal c with
    | none => none
    | some d =>
      if 6 ≤ clz64 value then
        readSize rest (((value <<< 5) ||| d) % 2 ^ 64) (bits + 5)
      else none

/-- Embeds `HashAndSize::FromBase32` (src/hash.hh) for a digest of
`numBytes` bytes (`HashBits = 8 * numBytes`).  Returns the digest bytes
and the size, or `none` when the C++ code returns `std::nullopt`.  The
final test rejects a size encoded with more digits than necessary:
`bits_in_value - actual_bits_in_value >= 5`, where
`actual_bits_in_value = 64 - countl_zero(value)`. -/
def FromBase32 (numBytes : Nat) (s : List Char) : Option (List Nat × Nat) :=
  match readHashBytes numBytes s 0 0 with
  | none => none
  | some (hashBytes, value, bits, rest) =>
    match readSize rest value bits with
    | none => none
    | some (value2, bits2) =>
      let actualBits := 64 - clz64 value2
      if 5 ≤ bits2 - actualBits then none
      else some (hashBytes, value2)

/-! ### Infrastructure for the codec proofs -/

/-- Value of a big-endian digit list in radix `B`, starting from
accumulator `v` (the shape of both accumulation loops in the codec). -/
def radixNat (B v : Nat) (ds : List Nat) : Nat := ds.foldl (fun n d => n * B + d) v

/-- Digit values produced by `tailDigits n bits` (the same list before
mapping each value through the digit table). -/
def tailVals (n bits : Nat) : List Nat :=
  (List.range (bits / 5)).map (fun i => n / 2 ^ (bits - 5 * i - 5) % 32)

/-! ## Stream buffer queue (src/src/stream.cc, `StreamBufferQueue`)

The queue owns a bounded pool of buffers split into the "unused" stack
and the "filled" queue.  We model a buffer by the data written into it
(`write_fun` always fills the buffer it is handed), the `unused_` vector
as a stack whose top is the list head, the `filled_` deque with its
front at the list head (so `push_back` appends at the end), and
`buffer_allocation_budget_`. -/

/-- State of a `StreamBufferQueue`. -/
structure StreamBufferQueue where
  unused : List Nat
  filled : List Nat
  budget : Nat

/-- Embeds `StreamBufferQueue::Enqueue` (blocking variant): take an
unused buffer (popping the top of the `unused_` stack) or allocate a new
one when the stack is empty and `buffer_allocation_budget_ >= 1`, let
`write_fun` fill it with `data`, and `filled_.push_back` it.  Returns
`none` where the C++ call would block (no unused buffer and no
allocation budget left). -/
def StreamBufferQueue.Enqueue (q : StreamBufferQueue) (data : Nat) :
    Option StreamBufferQueue :=
  if 1 ≤ q.budget then
    match q.unused with
    | [] =>
      some { unused := [], filled := q.filled ++ [data], budget := q.budget - 1 }
    | _ :: rest =>
      some { unused := rest, filled := q.filled ++ [data], budget := q.budget }
  else
    match q.unused with
    | [] => none
    | _ :: rest =>
      some { unused := rest, filled := q.filled ++ [data], budget := q.budget }

/-- Embeds `StreamBufferQueue::Dequeue` (src/src/stream.cc lines
687-708): the code pops `filled_.back()` (`buf =
std::move(filled_.back()); filled_.pop_back();`), i.e. the most recently
enqueued buffer, lets `read_fun` read it, and pushes the buffer onto the
`unused_` stack.  (The surrounding comments say "Get the oldest full
buffer" / "pop the frontost buffer" and the member comment says the
filled deque must stream data in FIFO order, but `.back()` is the newest
element.)  Returns `none` where the call would block (empty queue). -/
def StreamBufferQueue.Dequeue (q : StreamBufferQueue) :
    Option (Nat × StreamBufferQueue) :=
  match q.filled.getLast? with
  | none => none
  | some b =>
    some (b, { unused := b :: q.unused, filled := q.filled.dropLast,
               budget := q.budget })

/-! ## Directory content source (src/src/content_source.cc)

`DirectoryContentSource<HashBits>` (the variant whose `Fetch` passes
`read_only_ ? &content_store : nullptr` to `FindFile`).  Candidates of
the requested size are identified by path ids; `hashOf p` abstracts the
`SizeHasher` result for the file at `p` (a single `Nat` standing for the
whole `HashAndSize` value), and `streamDest`/`copyDest`/`moveDest`
abstract the destination paths allocated by `StreamInsert`, `CopyInsert`
and `MoveInsert`.  We record the operations performed so that the
claimed use of the forked stream is observable. -/

/-- Observable streaming/store operations performed by the source. -/
inductive SourceAction
  | plainStream (path : Nat)
  | streamInsert (path : Nat) (kept : Bool)
  | copyInsert (path : Nat)
  | moveInsert (path : Nat)
deriving DecidableEq

/-- Result struct of `DirectoryContentSource::FindFile`. -/
structure FindFileResult where
  path : Nat
  already_inserted : Bool
deriving DecidableEq

/-- Association lookup in `files_by_hash_`. -/
def lookupHash : List (Nat × Nat) → Nat → Option Nat
  | [], _ => none
  | (k, v) :: rest, h => if k = h then some v else lookupHash rest h

/-- Embeds the candidate loop of `DirectoryContentSource::FindFile`
(src/src/content_source.cc, lines 106-185).  The C++ loop pops
candidates off the *back* of the size-bucket vector
(`size_it->second.back()` + `pop_back`), so the caller passes the bucket
reversed and this loop walks it front to back.  `useStore` is whether
the `content_store` pointer argument is non-null; when it is, the
candidate is streamed through `content_store->StreamInsert` with
`streamer_.ForkedStream` feeding the hasher (primary) and the store file
(secondary), and the inserted file is kept iff the hash matched
(`return p_hs == hs`); otherwise the candidate is hashed with a plain
`streamer_.Stream`.  Returns the result, the actions performed, and the
updated `files_by_hash_` map. -/
def findFileLoop (hashOf streamDest : Nat → Nat) (requested : Nat)
    (useStore : Bool) : List Nat → List (Nat × Nat) →
      Option FindFileResult × List SourceAction × List (Nat × Nat)
  | [], byHash => (none, [], byHash)
  | p :: older, byHash =>
    let p_hs := hashOf p
    let inserted_path : Option Nat :=
      if useStore then
        if p_hs = requested then some (streamDest p) else none
      else none
    let act : SourceAction :=
      if useStore then .streamInsert p (p_hs == requested) else .plainStream p
    let stored := (lookupHash byHash p_hs).getD p
    let byHash' :=
      match lookupHash byHash p_hs with
      | some _ => byHash
      | none => (p_hs, p) :: byHash
    if p_hs = requested then
      (some { path := inserted_path.getD stored,
              already_inserted := inserted_path.isSome },
       [act], byHash')
    else
      let r := findFileLoop hashOf streamDest requested useStore older byHash'
      (r.1, act :: r.2.1, r.2.2)

/-- Embeds `DirectoryContentSource::FindFile` entry: consult
`files_by_hash_` first, then drain the size bucket (back to front). -/
def FindFile (hashOf streamDest : Nat → Nat) (requested : Nat) (useStore : Bool)
    (byHash : List (Nat × Nat)) (sizeBucket : List Nat) :
    Option FindFileResult × List SourceAction × List (Nat × Nat) :=
  match lookupHash byHash requested with
  | some p => (some { path := p, already_inserted := false }, [], byHash)
  | none => findFileLoop hashOf streamDest requested useStore sizeBucket.reverse byHash

/-- Embeds `DirectoryContentSource::Fetch` (src/src/content_source.cc,
lines 53-73): `FindFile(log, hs, read_only_ ? &content_store : nullptr)`
followed by `read_only_ ? content_store.CopyInsert(r->path, streamer_)
: content_store.MoveInsert(r->path, streamer_)` when the content was
found but not already inserted. -/
def Fetch (hashOf streamDest copyDest moveDest : Nat → Nat) (requested : Nat)
    (readOnly : Bool) (byHash : List (Nat × Nat)) (sizeBucket : List Nat) :
    Option Nat × List SourceAction :=
  let r := FindFile hashOf streamDest requested readOnly byHash sizeBucket
  match r.1 with
  | none => (none, r.2.1)
  | some res =>
    if res.already_inserted then (some res.path, r.2.1)
    else if readOnly then (some (copyDest res.path), r.2.1 ++ [.copyInsert res.path])
    else (some (moveDest res.path), r.2.1 ++ [.moveInsert res.path])

/-! ## AddFile (src/src/top_directory.cc, `TopDirectory::AddFile`)

Abstract repository state: the set of IDs in the hash index, and the
multisets of blob contents in `content/` and `unused-content/` (a moved
blob is identified by its byte contents; `hashOf` abstracts the
`SizeHasher` over the file bytes). -/

/-- Repository state used by the `AddFile` model. -/
structure AddFileState where
  index : List Nat
  content : List (List Nat)
  unused : List (List Nat)
deriving DecidableEq

/-- Mirrors `Top::AddResult`. -/
inductive AddResult
  | kSymlink
  | kNewFile
  | kDuplicateFile
deriving DecidableEq

/-- Embeds `TopDirectory::AddFile` (src/src/top_directory.cc lines
63-87) after the hashdir-symlink step: a symlink input short-circuits to
`kSymlink`; otherwise the file is hashed, move-inserted into the content
store, and `(hs, path)` is inserted into the index; when the index
insert returns `false` the just-inserted blob is move-inserted on into
the unused-content store and the result is `kDuplicateFile`, else
`kNewFile`.  (The rename/symlink bookkeeping on the user path does not
affect the store state and is omitted.) -/
def AddFile (hashOf : List Nat → Nat) (st : AddFileState)
    (isSymlink : Bool) (bytes : List Nat) : AddResult × AddFileState :=
  if isSymlink then (.kSymlink, st)
  else
    let hs := hashOf bytes
    let afterMove := bytes :: st.content
    if hs ∈ st.index then
      (.kDuplicateFile,
       { index := st.index, content := afterMove.erase bytes,
         unused := bytes :: st.unused })
    else
      (.kNewFile,
       { index := hs :: st.index, content := afterMove, unused := st.unused })

/-- Add a list of files in order, collecting the results. -/
def AddFiles (hashOf : List Nat → Nat) (st : AddFileState) :
    List (Bool × List Nat) → List AddResult × AddFileState
  | [] => ([], st)
  | (sym, bytes) :: rest =>
    let r := AddFile hashOf st sym bytes
    let rs := AddFiles hashOf r.2 rest
    (r.1 :: rs.1, rs.2)

/-! ## Hash index (src/src/hash_index.cc)

For `DiskHashIndex`, the filesystem slot for an ID is the path
`index_dir_ / SymlinkPath(hs.ToBase32())`; it is absent, a symlink, or
occupied by something else.  IDs and symlink targets are abstracted to
`Nat`. -/

/-- State of the index filesystem slot for one ID. -/
inductive IndexEntry
  | absent
  | symlink (target : Nat)
  | nonSymlink
deriving DecidableEq

/-- Errors thrown by `DiskHashIndex` operations (frz::Error, reported to
callers as `StorageError`). -/
inductive IdxError
  | existsNotSymlink
  | filesystemError
deriving DecidableEq

/-- Embeds `DiskHashIndex::Insert` (src/src/hash_index.cc lines 71-90).
`fs` maps each ID to the state of its index slot; `create` is the slot
state observed by `create_symlink` at creation time — equal to `fs id`
in a quiescent filesystem but possibly different when another process
created the entry between the `is_symlink()` check and `create_symlink`
(a creation race), in which case `create_symlink` throws a
`filesystem_error` that the surrounding catch rethrows as `Error`.  The
relative-path computation for the symlink target is abstracted to
`path`. -/
def diskInsert (fs : Nat → IndexEntry) (create : IndexEntry) (id path : Nat) :
    Except IdxError (Bool × (Nat → IndexEntry)) :=
  match fs id with
  | .symlink _ => .ok (false, fs)
  | .nonSymlink => .error .existsNotSymlink
  | .absent =>
    match create with
    | .absent => .ok (true, fun k => if k = id then .symlink path else fs k)
    | _ => .error .filesystemError

/-- Embeds `DiskHashIndex::Contains` (src/src/hash_index.cc lines
92-104). -/
def diskContains (fs : Nat → IndexEntry) (id : Nat) : Except IdxError Bool :=
  match fs id with
  | .symlink _ => .ok true
  | .nonSymlink => .error .existsNotSymlink
  | .absent => .ok false

/-- Embeds `RamHashIndex::Insert` (src/src/hash_index.cc lines 35-39):
`try_emplace` on the map, returning whether a new entry was created. -/
def ramInsert (index : List (Nat × Nat)) (id path : Nat) :
    Bool × List (Nat × Nat) :=
  match lookupHash index id with
  | some _ => (false, index)
  | none => (true, (id, path) :: index)

/-! ## Repair Phase A (src/src/top_directory.cc, `CheckIndexSymlinks`)

The `is_good` lambda passed to `Scrub` verifies one index entry inside a
`try { ... } catch (const Error& e)` block.  `frz::Error` is a
standalone final class (src/src/exceptions.hh), so that handler catches
nothing else: the statting steps (`std::filesystem::directory_entry`
construction, `is_regular_file`, `file_size`) throw
`std::filesystem::filesystem_error` on failure, which escapes the
per-entry handler and aborts the scrub, while a read error during the
multi-threaded re-hash (`streamer_.Stream`) is thrown via `ErrnoError()`
on a worker thread and never reaches the handler at all.  Only
`CreateFileSource` (opening the content file) and
`FillBufferFromStream` (the first-byte smoke test) throw `frz::Error`
on the calling thread.  Each step is abstracted by an oracle describing
its outcome for that entry. -/

/-- Kind of exception escaping one verification step: a `frz::Error`
thrown on the calling thread, a `std::filesystem::filesystem_error`,
or an error thrown on a streamer worker thread. -/
inductive PhaseExc where
  | frzError
  | fsError
  | workerError
deriving DecidableEq

/-- Oracle for the verification steps of one index entry.
`isRegularFile` and `fileSize` model the statting steps
(`directory_entry` construction, `is_regular_file`, `file_size`), whose
failures are `std::filesystem::filesystem_error`; `openFile` and
`firstByteCount` model `CreateFileSource` and `FillBufferFromStream`,
whose failures are `frz::Error`; `streamedHash` models the
multi-threaded re-hash, whose read failures are thrown on a worker
thread. -/
structure EntryOracle where
  canonicalPath : Option Nat
  isRegularFile : Except Unit Bool
  fileSize : Except Unit Nat
  openFile : Except Unit Unit
  streamedHash : Except Unit Nat
  firstByteCount : Except Unit Nat

/-- Embeds the `try` block of the `is_good` lambda in
`TopDirectory::CheckIndexSymlinks` (src/src/top_directory.cc lines
169-260): canonical-path check, regular-file check, size check, then
either a full re-hash (`verify_all_hashes`) or the first-byte smoke
test.  `.ok true` = keep the entry, `.ok false` = one of the checks
failed, `.error k` = one of the steps threw an exception of kind `k`. -/
def checkEntryBody (verifyAll : Bool) (expectedHs expectedSize : Nat)
    (o : EntryOracle) : Except PhaseExc Bool :=
  match o.canonicalPath with
  | none => .ok false
  | some _ =>
    match o.isRegularFile with
    | .error _ => .error .fsError
    | .ok false => .ok false
    | .ok true =>
      match o.fileSize with
      | .error _ => .error .fsError
      | .ok sz =>
        if sz ≠ expectedSize then .ok false
        else
          match o.openFile with
          | .error _ => .error .frzError
          | .ok _ =>
            if verifyAll then
              match o.streamedHash with
              | .error _ => .error .workerError
              | .ok hs => if hs ≠ expectedHs then .ok false else .ok true
            else
              match o.firstByteCount with
              | .error _ => .error .frzError
              | .ok n =>
                if n = 0 ∧ 1 ≤ expectedSize then .ok false
                else if n = 1 ∧ expectedSize < 1 then .ok false
                else .ok true

/-- Embeds the full `is_good` lambda including its
`catch (const Error&)` handler and the counter updates: a thrown
`frz::Error` is caught and the entry is marked bad exactly like a
failed check, but any other exception escapes the handler.  Returns
`.ok (keep, (num_good, num_bad))`, or the escaping exception. -/
def checkEntry (verifyAll : Bool) (expectedHs expectedSize : Nat)
    (o : EntryOracle) (good bad : Nat) :
    Except PhaseExc (Bool × Nat × Nat) :=
  match checkEntryBody verifyAll expectedHs expectedSize o with
  | .ok true => .ok (true, good + 1, bad)
  | .ok false => .ok (false, good, bad + 1)
  | .error .frzError => .ok (false, good, bad + 1)
  | .error e => .error e

/-- Embeds Phase A (`CheckIndexSymlinks`): scrub every index entry,
keeping the good ones; entries are `(hs, size, oracle)`.  Returns
(num_good, num_bad, kept entries), or aborts at the first entry whose
verification raises an exception the per-entry handler does not
catch. -/
def checkIndexSymlinks (verifyAll : Bool) :
    List (Nat × Nat × EntryOracle) →
      Except PhaseExc (Nat × Nat × List (Nat × Nat))
  | [] => .ok (0, 0, [])
  | (hs, sz, o) :: rest =>
    match checkEntry verifyAll hs sz o 0 0 with
    | .error e => .error e
    | .ok r =>
      match checkIndexSymlinks verifyAll rest with
      | .error e => .error e
      | .ok rs =>
        .ok (r.2.1 + rs.1, r.2.2 + rs.2.1,
          (if r.1 then [(hs, sz)] else []) ++ rs.2.2)

/-- Sample oracle: every step matches (hash 1, size 2) except opening
the content file, which throws `frz::Error` (`ErrnoError()` in
`CreateFileSource`). -/
def oracleOpenFail : EntryOracle :=
  { canonicalPath := some 0, isRegularFile := .ok true, fileSize := .ok 2,
    openFile := .error (), streamedHash := .ok 1, firstByteCount := .ok 1 }

/-- Sample oracle: `file_size` throws
`std::filesystem::filesystem_error` (e.g. the content file disappears
between the regular-file check and the size check). -/
def oracleStatFail : EntryOracle :=
  { canonicalPath := some 0, isRegularFile := .ok true, fileSize := .error (),
    openFile := .ok (), streamedHash := .ok 1, firstByteCount := .ok 1 }

/-- Sample oracle: the re-hash hits a read error, thrown via
`ErrnoError()` on a streamer worker thread. -/
def oracleWorkerFail : EntryOracle :=
  { canonicalPath := some 0, isRegularFile := .ok true, fileSize := .ok 2,
    openFile := .ok (), streamedHash := .error (), firstByteCount := .ok 1 }

/-- Sample oracle: the symlink target is outside the content directory
(`CanonicalPath` returns `nullopt`), a non-throwing bad entry. -/
def oracleBadPath : EntryOracle :=
  { canonicalPath := none, isRegularFile := .ok true, fileSize := .ok 2,
    openFile := .ok (), streamedHash := .ok 1, firstByteCount := .ok 1 }

/-! ## Fill / Repair exit codes (Fill and Repair in src/unnamed/part_003,
result assembly in src/src/top_directory.cc) -/

/-- Mirrors `Top::FillResult`. -/
structure FillResultM where
  num_fetched : Nat
  num_still_missing : Nat
deriving DecidableEq

/-- Mirrors `Top::RepairResult`. -/
structure RepairResultM where
  num_good_index_symlinks : Nat
  num_bad_index_symlinks : Nat
  num_missing_index_symlinks : Nat
  num_duplicate_content_files : Nat
  num_fetched : Nat
  num_still_missing : Nat
deriving DecidableEq

/-- Mirrors `CheckIndexSymlinksResult` (counter fields only). -/
structure PhaseAResultM where
  num_good_index_symlinks : Nat
  num_bad_index_symlinks : Nat
deriving DecidableEq

/-- Mirrors `CheckContentFilesResult`. -/
structure PhaseBResultM where
  num_missing_index_symlinks : Nat
  num_duplicate_content_files : Nat
deriving DecidableEq

/-- Mirrors `FetchMissingContentResult`. -/
structure PhaseCResultM where
  num_fetched : Nat
  num_still_missing : Nat
deriving DecidableEq

/-- Embeds the result assembly in `TopDirectory::Fill`
(src/src/top_directory.cc): the returned counters come from the
fetch-missing-content phase. -/
def assembleFill (r : PhaseCResultM) : FillResultM :=
  { num_fetched := r.num_fetched, num_still_missing := r.num_still_missing }

/-- Embeds the result assembly in `TopDirectory::Repair`
(src/src/top_directory.cc): Phase A, Phase B and Phase C counters are
merged into one struct. -/
def assembleRepair (r1 : PhaseAResultM) (r2 : PhaseBResultM)
    (r3 : PhaseCResultM) : RepairResultM :=
  { num_good_index_symlinks := r1.num_good_index_symlinks,
    num_bad_index_symlinks := r1.num_bad_index_symlinks,
    num_missing_index_symlinks := r2.num_missing_index_symlinks,
    num_duplicate_content_files := r2.num_duplicate_content_files,
    num_fetched := r3.num_fetched,
    num_still_missing := r3.num_still_missing }

/-- Embeds `int Fill(...)` from src/unnamed/part_003 (lines 178-193):
`return result.num_still_missing == 0 ? 0 : 1;` inside a `try`, with the
`catch (const Error&)` path returning 1. -/
def fillExitCode (r : Except Unit FillResultM) : Nat :=
  match r with
  | .ok result => if result.num_still_missing = 0 then 0 else 1
  | .error _ => 1

/-- Embeds `int Repair(...)` from src/unnamed/part_003 (lines 199-223):
`return result.num_still_missing == 0 ? 0 : 1;` inside a `try`, with the
`catch (const Error&)` path returning 1. -/
def repairExitCode (r : Except Unit RepairResultM) : Nat :=
  match r with
  | .ok result => if result.num_still_missing = 0 then 0 else 1
  | .error _ => 1

/-! ## Fetch-missing-content loop body (src/src/top_directory.cc,
`FetchMissingContentDir` lines 396-413) -/

/-- First locator result that is a hit: the loop `for (const auto& s :
sources)` breaks at the first `Fetch` returning a path.  `Fetch` only
writes to the content store, never to the hash index, so the index state
is unchanged across the loop. -/
def firstFetch : List (Option Nat) → Option Nat
  | [] => none
  | some p :: _ => some p
  | none :: rest => firstFetch rest

/-- Embeds the per-symlink fetch step of
`TopDirectory::FetchMissingContentDir`: if the index does not contain
the parsed ID, try each locator in order; on the first hit, insert the
ID into the index and `FRZ_ASSERT(fetched)`.  Returns the value of
`fetched` observed by the assertion (`true` when the assertion is not
reached) together with the updated index state. -/
def fetchMissingStep (fs : Nat → IndexEntry) (id : Nat)
    (sourceResults : List (Option Nat)) :
    Except IdxError (Bool × (Nat → IndexEntry)) :=
  match diskContains fs id with
  | .error e => .error e
  | .ok true => .ok (true, fs)
  | .ok false =>
    match firstFetch sourceResults with
    | none => .ok (true, fs)
    | some p =>
      match diskInsert fs (fs id) id p with
      | .error e => .error e
      | .ok (fetched, fs2) => .ok (fetched, fs2)

/-- Candidates actually hashed by one `FindFile` call, in pop order: the
bucket is drained until the first digest match (inclusive). -/
def processedCandidates (hashOf : Nat → Nat) (requested : Nat) :
    List Nat → List Nat
  | [] => []
  | p :: rest =>
    if hashOf p = requested then [p]
    else p :: processedCandidates hashOf requested rest

/-- First candidate (in pop order) whose digest matches the request. -/
def firstMatch (hashOf : Nat → Nat) (requested : Nat) : List Nat → Option Nat
  | [] => none
  | p :: rest =>
    if hashOf p = requested then some p else firstMatch hashOf requested rest

theorem radixNat_nil (B v : Nat) : radixNat B v [] = v := rfl

theorem radixNat_cons (B v d : Nat) (ds : List Nat) :
    radixNat B v (d :: ds) = radixNat B (v * B + d) ds := rfl

theorem radixNat_append (B v : Nat) (ds₁ ds₂ : List Nat) :
    radixNat B v (ds₁ ++ ds₂) = radixNat B (radixNat B v ds₁) ds₂ := by
  simp [radixNat, List.foldl_append]

theorem radixNat_shift (B : Nat) (ds : List Nat) : ∀ v,
    radixNat B v ds = v * B ^ ds.length + radixNat B 0 ds := by
  induction ds with
  | nil => intro v; simp [radixNat]
  | cons d ds ih =>
    intro v
    rw [radixNat_cons, radixNat_cons, ih (v * B + d), ih (0 * B + d)]
    simp only [List.length_cons]
    ring

theorem radixNat_zero_lt (B : Nat) (hB : 0 < B) (ds : List Nat)
    (h : ∀ d ∈ ds, d < B) : radixNat B 0 ds < B ^ ds.length := by
  induction ds with
  | nil => simpa [radixNat] using hB
  | cons d ds ih =>
    have hd : d < B := h d (by simp)
    have ih' := ih (fun x hx => h x (by simp [hx]))
    rw [radixNat_cons, radixNat_shift]
    have : (0 * B + d) * B ^ ds.length + radixNat B 0 ds <
        (0 * B + d) * B ^ ds.length + B ^ ds.length := by omega
    calc (0 * B + d) * B ^ ds.length + radixNat B 0 ds
        < (d + 1) * B ^ ds.length := by push_cast; nlinarith
      _ ≤ B * B ^ ds.length := by
          have : d + 1 ≤ B := hd
          exact Nat.mul_le_mul_right _ this
      _ = B ^ (d :: ds).length := by rw [List.length_cons]; ring

theorem radixNat_lt (B v b : Nat) (hB : 0 < B) (ds : List Nat)
    (hv : v < b) (h : ∀ d ∈ ds, d < B) :
    radixNat B v ds < b * B ^ ds.length := by
  rw [radixNat_shift]
  have h1 := radixNat_zero_lt B hB ds h
  have h2 : v * B ^ ds.length + B ^ ds.length ≤ b * B ^ ds.length := by
    have : v + 1 ≤ b := hv
    nlinarith [Nat.pos_pow_of_pos ds.length hB]
  omega

theorem radixNat_le (B v : Nat) (ds : List Nat) :
    v * B ^ ds.length ≤ radixNat B v ds := by
  rw [radixNat_shift]; omega

theorem radixNat_inj (B : Nat) (hB : 0 < B) : ∀ ds₁ ds₂ : List Nat,
    ds₁.length = ds₂.length → (∀ d ∈ ds₁, d < B) → (∀ d ∈ ds₂, d < B) →
    radixNat B 0 ds₁ = radixNat B 0 ds₂ → ds₁ = ds₂ := by
  intro ds₁
  induction ds₁ with
  | nil =>
    intro ds₂ hlen _ _ _
    exact (List.length_eq_zero.mp hlen.symm).symm
  | cons d₁ ds₁ ih =>
    intro ds₂ hlen hv₁ hv₂ heq
    match ds₂ with
    | [] => simp at hlen
    | d₂ :: ds₂ =>
      have hlen' : ds₁.length = ds₂.length := by simpa using hlen
      rw [radixNat_cons, radixNat_cons, radixNat_shift B ds₁, radixNat_shift B ds₂,
        hlen'] at heq
      have h₁ : radixNat B 0 ds₁ < B ^ ds₂.length := hlen' ▸
        radixNat_zero_lt B hB ds₁ (fun x hx => hv₁ x (by simp [hx]))
      have h₂ : radixNat B 0 ds₂ < B ^ ds₂.length :=
        radixNat_zero_lt B hB ds₂ (fun x hx => hv₂ x (by simp [hx]))
      have hd : d₁ = d₂ := by
        by_contra hne
        rcases Nat.lt_or_ge d₁ d₂ with h | h
        · nlinarith [Nat.pos_pow_of_pos ds₂.length hB]
        · have : d₂ < d₁ := by omega
          nlinarith [Nat.pos_pow_of_pos ds₂.length hB]
      subst hd
      have : radixNat B 0 ds₁ = radixNat B 0 ds₂ := by
        have := heq
        simp only [Nat.zero_mul, Nat.zero_add] at this ⊢
        omega
      exact congrArg _ (ih ds₂ hlen' (fun x hx => hv₁ x (by simp [hx]))
        (fun x hx => hv₂ x (by simp [hx])) this)

theorem pow32_eq (n : Nat) : (32 : Nat) ^ n = 2 ^ (5 * n) := by
  rw [show (32 : Nat) = 2 ^ 5 from rfl, ← pow_mul]

theorem pow256_eq (n : Nat) : (256 : Nat) ^ n = 2 ^ (8 * n) := by
  rw [show (256 : Nat) = 2 ^ 8 from rfl, ← pow_mul]

theorem bitWidthAux_le_iff : ∀ fuel n k : Nat, n ≤ fuel →
    (bitWidthAux fuel n ≤ k ↔ n < 2 ^ k) := by
  intro fuel
  induction fuel with
  | zero =>
    intro n k hn
    have : n = 0 := by omega
    subst this
    have hp : 0 < 2 ^ k := Nat.pos_pow_of_pos k (by norm_num)
    simpa [bitWidthAux] using hp
  | succ fuel ih =>
    intro n k hn
    by_cases h0 : n = 0
    · subst h0
      have hp : 0 < 2 ^ k := Nat.pos_pow_of_pos k (by norm_num)
      simpa [bitWidthAux] using hp
    · have hrec : n / 2 ≤ fuel := by omega
      rw [show bitWidthAux (fuel + 1) n = bitWidthAux fuel (n / 2) + 1 by
        simp [bitWidthAux, h0]]
      match k with
      | 0 =>
        simp only [Nat.pow_zero]
        omega
      | k + 1 =>
        rw [Nat.add_le_add_iff_right, ih (n / 2) k hrec, pow_succ]
        omega

theorem bitWidth_le_iff (n k : Nat) : bitWidth n ≤ k ↔ n < 2 ^ k :=
  bitWidthAux_le_iff n n k le_rfl

theorem lt_two_pow_bitWidth (n : Nat) : n < 2 ^ bitWidth n :=
  (bitWidth_le_iff n (bitWidth n)).mp le_rfl

theorem two_pow_bitWidth_le (n : Nat) (h : 0 < n) : 2 ^ (bitWidth n - 1) ≤ n := by
  by_contra hlt
  have h1 : bitWidth n ≤ bitWidth n - 1 := (bitWidth_le_iff n _).mpr (by omega)
  have h2 : 1 ≤ bitWidth n := by
    by_contra h2
    have : bitWidth n ≤ 0 := by omega
    have := (bitWidth_le_iff n 0).mp this
    omega
  omega

theorem clz64_ge_six_iff (v : Nat) : 6 ≤ clz64 v ↔ v < 2 ^ 58 := by
  unfold clz64
  rw [← bitWidth_le_iff]
  omega

theorem sub_clz64_eq (v : Nat) (h : v < 2 ^ 64) : 64 - clz64 v = bitWidth v := by
  have := (bitWidth_le_iff v 64).mpr h
  unfold clz64
  omega

theorem lor_two_pow_add (k : Nat) : ∀ a b : Nat, b < 2 ^ k →
    a * 2 ^ k ||| b = a * 2 ^ k + b := by
  induction k with
  | zero => intro a b hb; simp [Nat.lt_one_iff.mp hb]
  | succ k ih =>
    intro a b hb
    have h1 : a * 2 ^ (k + 1) = Nat.bit false (a * 2 ^ k) := by
      simp [Nat.bit]; ring
    have hb2 : b / 2 < 2 ^ k := by
      have : 2 ^ (k + 1) = 2 * 2 ^ k := by ring
      omega
    have h2 : b = Nat.bit (decide (b % 2 = 1)) (b / 2) := by
      rcases Nat.mod_two_eq_zero_or_one b with h | h <;> simp [Nat.bit, h] <;> omega
    rw [h1, h2, Nat.lor_bit]
    have h3 := ih a (b / 2) hb2
    rcases Nat.mod_two_eq_zero_or_one b with h | h <;>
      simp [Nat.bit, h, h3] <;> ring_nf <;> omega

theorem shiftLeft_lor_eq (a b k : Nat) (h : b < 2 ^ k) :
    (a <<< k) ||| b = a * 2 ^ k + b := by
  rw [Nat.shiftLeft_eq]
  exact lor_two_pow_add k a b h

theorem shiftRight_eq_div (n k : Nat) : n >>> k = n / 2 ^ k :=
  Nat.shiftRight_eq_div_pow n k

theorem and_pow_two_sub_one (n k : Nat) : n &&& (2 ^ k - 1) = n % 2 ^ k :=
  Nat.and_pow_two_sub_one_eq_mod n k

theorem Base32ToVal_base32Digit (d : Nat) (h : d < 32) :
    Base32ToVal (base32Digit d) = some d := by
  interval_cases d <;> rfl

theorem Base32ToVal_lt (c : Char) (d : Nat) (h : Base32ToVal c = some d) :
    d < 32 := by
  unfold Base32ToVal at h
  split at h <;> simp_all <;> omega

set_option maxHeartbeats 1000000 in
theorem toLower_eq_base32Digit (c : Char) (d : Nat) (h : Base32ToVal c = some d) :
    Char.toLower c = base32Digit d := by
  unfold Base32ToVal at h
  split at h <;> first
    | (injection h with h; subst h; decide)
    | simp_all

theorem tailDigits_eq_map (n bits : Nat) :
    tailDigits n bits = (tailVals n bits).map base32Digit := by
  unfold tailDigits tailVals
  rw [List.map_map]
  apply List.map_congr_left
  intro i _
  have h31 : (0x1f : Nat) = 2 ^ 5 - 1 := by norm_num
  simp only [Function.comp_apply, h31, and_pow_two_sub_one, shiftRight_eq_div]
  norm_num

theorem tailVals_lt (n bits : Nat) : ∀ d ∈ tailVals n bits, d < 32 := by
  intro d hd
  simp only [tailVals, List.mem_map, List.mem_range] at hd
  obtain ⟨i, _, rfl⟩ := hd
  exact Nat.mod_lt _ (by norm_num)

theorem tailVals_length (n bits : Nat) : (tailVals n bits).length = bits / 5 := by
  simp [tailVals]

theorem radixNat_tailVals : ∀ k n : Nat, n < 2 ^ (5 * k) →
    radixNat 32 0 (tailVals n (5 * k)) = n := by
  intro k
  induction k with
  | zero =>
    intro n hn
    simp only [Nat.mul_zero, pow_zero] at hn
    have : n = 0 := by omega
    subst this
    simp [tailVals, radixNat]
  | succ k ih =>
    intro n hn
    have hpow : 2 ^ (5 * (k + 1)) = 32 * 2 ^ (5 * k) := by
      rw [show 5 * (k + 1) = 5 + 5 * k by ring, pow_add]
      norm_num
    have hsplit : tailVals n (5 * (k + 1)) =
        tailVals (n / 32) (5 * k) ++ [n % 32] := by
      unfold tailVals
      rw [show 5 * (k + 1) / 5 = k + 1 by omega, show 5 * k / 5 = k by omega,
        List.range_succ, List.map_append]
      congr 1
      · apply List.map_congr_left
        intro i hi
        have hik : i < k := List.mem_range.mp hi
        have he : 5 * (k + 1) - 5 * i - 5 = 5 * k - 5 * i - 5 + 5 := by omega
        rw [he, pow_add, Nat.div_div_eq_div_mul]
        norm_num
        rw [Nat.mul_comm]
      · simp [show 5 * (k + 1) - 5 * k - 5 = 0 by omega]
    have hdiv : n / 32 < 2 ^ (5 * k) := by
      rw [Nat.div_lt_iff_lt_mul (by norm_num : (0:Nat) < 32)]
      omega
    rw [hsplit, radixNat_append, ih (n / 32) hdiv, radixNat_cons, radixNat_nil]
    omega

theorem hashGroupDigits_eq (n : Nat) : hashGroupDigits n = tailDigits n 40 := by
  have h8 : List.range (40 / 5) = [0, 1, 2, 3, 4, 5, 6, 7] := by rfl
  simp only [hashGroupDigits, tailDigits, h8, List.map_cons, List.map_nil]

theorem foldl_lor_radix : ∀ (bs : List Nat) (v : Nat), (∀ b ∈ bs, b < 256) →
    bs.foldl (fun n b => (n <<< 8) ||| b) v = radixNat 256 v bs := by
  intro bs
  induction bs with
  | nil => intro v _; rfl
  | cons b bs ih =>
    intro v hv
    have hb : b < 256 := hv b (by simp)
    have hstep : (v <<< 8) ||| b = v * 256 + b := by
      have := shiftLeft_lor_eq v b 8 (by omega)
      simpa using this
    simp only [List.foldl_cons, hstep]
    exact ih _ (fun x hx => hv x (by simp [hx]))

theorem lorChain_eq (b0 b1 b2 b3 b4 : Nat) (h0 : b0 < 256) (h1 : b1 < 256)
    (h2 : b2 < 256) (h3 : b3 < 256) (h4 : b4 < 256) :
    (b0 <<< 32) ||| (b1 <<< 24) ||| (b2 <<< 16) ||| (b3 <<< 8) ||| b4 =
      radixNat 256 0 [b0, b1, b2, b3, b4] := by
  rw [Nat.lor_assoc, Nat.lor_assoc, Nat.lor_assoc]
  have e4 : (b3 <<< 8) ||| b4 = b3 * 2 ^ 8 + b4 :=
    shiftLeft_lor_eq b3 b4 8 (by norm_num; omega)
  have b4lt : b3 * 2 ^ 8 + b4 < 2 ^ 16 := by norm_num; omega
  have e3 : (b2 <<< 16) ||| (b3 * 2 ^ 8 + b4) = b2 * 2 ^ 16 + (b3 * 2 ^ 8 + b4) :=
    shiftLeft_lor_eq b2 _ 16 b4lt
  have b3lt : b2 * 2 ^ 16 + (b3 * 2 ^ 8 + b4) < 2 ^ 24 := by norm_num; omega
  have e2 : (b1 <<< 24) ||| (b2 * 2 ^ 16 + (b3 * 2 ^ 8 + b4)) =
      b1 * 2 ^ 24 + (b2 * 2 ^ 16 + (b3 * 2 ^ 8 + b4)) :=
    shiftLeft_lor_eq b1 _ 24 b3lt
  have b2lt : b1 * 2 ^ 24 + (b2 * 2 ^ 16 + (b3 * 2 ^ 8 + b4)) < 2 ^ 32 := by
    norm_num; omega
  have e1 : (b0 <<< 32) ||| (b1 * 2 ^ 24 + (b2 * 2 ^ 16 + (b3 * 2 ^ 8 + b4))) =
      b0 * 2 ^ 32 + (b1 * 2 ^ 24 + (b2 * 2 ^ 16 + (b3 * 2 ^ 8 + b4))) :=
    shiftLeft_lor_eq b0 _ 32 b2lt
  rw [e4, e3, e2, e1]
  simp [radixNat]
  ring

theorem toBase32Groups_spec : ∀ hb : List Nat, (∀ b ∈ hb, b < 256) →
    ∃ pre ds : List Nat, hb = pre ++ (toBase32Groups hb).2 ∧
      (toBase32Groups hb).1 = List.map base32Digit ds ∧
      (∀ d ∈ ds, d < 32) ∧
      5 * ds.length = 8 * pre.length ∧
      radixNat 32 0 ds = radixNat 256 0 pre ∧
      (toBase32Groups hb).2.length ≤ 4 := by
  intro hb
  induction hb using toBase32Groups.induct with
  | case1 b0 b1 b2 b3 b4 rest ih =>
    intro hvb
    have h0 : b0 < 256 := hvb b0 (by simp)
    have h1 : b1 < 256 := hvb b1 (by simp)
    have h2 : b2 < 256 := hvb b2 (by simp)
    have h3 : b3 < 256 := hvb b3 (by simp)
    have h4 : b4 < 256 := hvb b4 (by simp)
    obtain ⟨pre, ds, hsplit, hmap, hdlt, hlen, hrad, hlo⟩ :=
      ih (fun b hb => hvb b (by simp [hb]))
    set n : Nat :=
      (b0 <<< 32) ||| (b1 <<< 24) ||| (b2 <<< 16) ||| (b3 <<< 8) ||| b4 with hn
    have hne : n = radixNat 256 0 [b0, b1, b2, b3, b4] :=
      lorChain_eq b0 b1 b2 b3 b4 h0 h1 h2 h3 h4
    have hnlt : n < 2 ^ 40 := by
      rw [hne]
      have := radixNat_zero_lt 256 (by norm_num) [b0, b1, b2, b3, b4]
        (by intro d hd; simp at hd; rcases hd with h | h | h | h | h <;> omega)
      simpa [pow256_eq] using this
    have heq : toBase32Groups (b0 :: b1 :: b2 :: b3 :: b4 :: rest) =
        (hashGroupDigits n ++ (toBase32Groups rest).1, (toBase32Groups rest).2) := by
      rw [toBase32Groups]
    refine ⟨[b0, b1, b2, b3, b4] ++ pre, tailVals n 40 ++ ds, ?_, ?_, ?_, ?_, ?_, ?_⟩
    · rw [heq]
      simpa using hsplit
    · rw [heq]
      simp only [List.map_append]
      rw [hashGroupDigits_eq, tailDigits_eq_map, hmap]
    · intro d hd
      rcases List.mem_append.mp hd with h | h
      · exact tailVals_lt n 40 d h
      · exact hdlt d h
    · simp only [List.length_append, tailVals_length, List.length_cons,
        List.length_nil]
      omega
    · rw [radixNat_append, radixNat_append]
      have htv : radixNat 32 0 (tailVals n 40) = n := by
        have := radixNat_tailVals 8 n (by norm_num at hnlt ⊢; omega)
        norm_num at this
        exact this
      rw [htv, hne]
      rw [radixNat_shift 32 ds, radixNat_shift 256 pre, hrad]
      have hconv : (32 : Nat) ^ ds.length = 256 ^ pre.length := by
        rw [pow32_eq, pow256_eq, hlen]
      rw [hconv]
    · rw [heq]
      exact hlo
  | case2 rest h =>
    intro hvb
    have main : toBase32Groups rest = ([], rest) ∧ rest.length ≤ 4 := by
      rcases rest with _ | ⟨a, _ | ⟨b, _ | ⟨c, _ | ⟨d, _ | ⟨e, tail⟩⟩⟩⟩⟩
      · exact ⟨rfl, by norm_num⟩
      · exact ⟨rfl, by norm_num⟩
      · exact ⟨rfl, by norm_num⟩
      · exact ⟨rfl, by norm_num⟩
      · exact ⟨rfl, by norm_num⟩
      · exact (h a b c d e tail rfl).elim
    obtain ⟨heq, hshort⟩ := main
    refine ⟨[], [], by simp [heq], by simp [heq], by simp, by simp, rfl, ?_⟩
    rw [heq]
    exact hshort

theorem roundUp5_facts (x : Nat) :
    x ≤ RoundUp x 5 ∧ RoundUp x 5 < x + 5 ∧ RoundUp x 5 % 5 = 0 := by
  unfold RoundUp
  omega

theorem ToBase32_spec (hb : List Nat) (size : Nat) (hvb : ∀ b ∈ hb, b < 256)
    (hsz : size < 2 ^ 63) :
    ∃ ds : List Nat, ToBase32 hb size = List.map base32Digit ds ∧
      (∀ d ∈ ds, d < 32) ∧
      5 * ds.length = 8 * hb.length +
        (RoundUp (bitWidth size + 8 * hb.length) 5 - 8 * hb.length) ∧
      radixNat 32 0 ds = radixNat 256 0 hb *
        2 ^ (RoundUp (bitWidth size + 8 * hb.length) 5 - 8 * hb.length) + size := by
  have hsz64 : size < 2 ^ 64 := lt_trans hsz (by norm_num)
  have hbw : 64 - clz64 size = bitWidth size := sub_clz64_eq size hsz64
  obtain ⟨pre, gds, hsplit, hgmap, hglt, hglen, hgrad, hlolen⟩ :=
    toBase32Groups_spec hb hvb
  set lo := (toBase32Groups hb).2 with hlo
  set sb := RoundUp (bitWidth size + 8 * hb.length) 5 - 8 * hb.length with hsb
  obtain ⟨hr1, hr2, hr3⟩ := roundUp5_facts (bitWidth size + 8 * hb.length)
  have hbwsb : bitWidth size ≤ sb := by omega
  have hsizelt : size < 2 ^ sb :=
    lt_of_lt_of_le (lt_two_pow_bitWidth size)
      (Nat.pow_le_pow_right (by norm_num) hbwsb)
  have hloval : ∀ b ∈ lo, b < 256 := fun b h =>
    hvb b (hsplit ▸ List.mem_append.mpr (Or.inr h))
  have hn0 : lo.foldl (fun n b => (n <<< 8) ||| b) 0 = radixNat 256 0 lo :=
    foldl_lor_radix lo 0 hloval
  set n0 := radixNat 256 0 lo with hn0def
  have hn0lt : n0 < 2 ^ (8 * lo.length) := by
    have := radixNat_zero_lt 256 (by norm_num) lo hloval
    rwa [pow256_eq] at this
  have hnval : (n0 <<< sb) ||| size = n0 * 2 ^ sb + size :=
    shiftLeft_lor_eq n0 size sb hsizelt
  set bits := 8 * lo.length + sb with hbits
  set n := n0 * 2 ^ sb + size with hndef
  have hnlt : n < 2 ^ bits := by
    calc n < n0 * 2 ^ sb + 2 ^ sb := by omega
      _ = (n0 + 1) * 2 ^ sb := by ring
      _ ≤ 2 ^ (8 * lo.length) * 2 ^ sb := Nat.mul_le_mul_right _ (by omega)
      _ = 2 ^ bits := by rw [← pow_add]
  have hlen2 : hb.length = pre.length + lo.length := by
    rw [hsplit, List.length_append]
  have hdvd : bits % 5 = 0 := by omega
  have h5k : 5 * (bits / 5) = bits := by omega
  have htv : radixNat 32 0 (tailVals n bits) = n := by
    have := radixNat_tailVals (bits / 5) n (by rw [h5k]; exact hnlt)
    rwa [h5k] at this
  refine ⟨gds ++ tailVals n bits, ?_, ?_, ?_, ?_⟩
  · show ToBase32 hb size = _
    unfold ToBase32
    simp only [← hlo, hbw, ← hsb, hn0, ← hn0def, hnval, ← hndef, ← hbits, hgmap,
      List.map_append, tailDigits_eq_map]
  · intro d hd
    rcases List.mem_append.mp hd with h | h
    · exact hglt d h
    · exact tailVals_lt n bits d h
  · simp only [List.length_append, tailVals_length]
    omega
  · rw [radixNat_append, radixNat_shift 32 (tailVals n bits), htv,
      tailVals_length, hgrad, pow32_eq, h5k]
    have hhb : radixNat 256 0 hb = radixNat 256 0 pre * 2 ^ (8 * lo.length) + n0 := by
      conv_lhs => rw [hsplit]
      rw [radixNat_append, radixNat_shift, pow256_eq]
    rw [hhb, hbits, hndef, pow_add]
    ring

theorem acc_step (value d : Nat) (hv : value < 2 ^ 58) (hd : d < 32) :
    ((value <<< 5) ||| d) % 2 ^ 64 = value * 32 + d := by
  have h1 : (value <<< 5) ||| d = value * 2 ^ 5 + d :=
    shiftLeft_lor_eq value d 5 (by norm_num; omega)
  rw [h1]
  apply Nat.mod_eq_of_lt
  norm_num
  omega

theorem getByteLoop_exit (input : List Char) (value bits : Nat) (h : ¬ bits < 8) :
    getByteLoop input value bits =
      some (value >>> (bits - 8), value &&& (2 ^ (bits - 8) - 1), bits - 8, input) := by
  cases input <;> simp [getByteLoop, h]

theorem getByteLoop_step (c : Char) (rest : List Char) (value bits d : Nat)
    (hbits : bits < 8) (hd : Base32ToVal c = some d) :
    getByteLoop (c :: rest) value bits =
      getByteLoop rest (((value <<< 5) ||| d) % 2 ^ 64) (bits + 5) := by
  simp [getByteLoop, hbits, hd]

theorem getByteLoop_run : ∀ (ds : List Nat) (rest : List Char) (value bits : Nat),
    value < 2 ^ bits → (∀ d ∈ ds, d < 32) →
    8 ≤ bits + 5 * ds.length → bits + 5 * ds.length ≤ 12 →
    (∀ j < ds.length, bits + 5 * j < 8) →
    getByteLoop (List.map base32Digit ds ++ rest) value bits =
      some (radixNat 32 value ds >>> (bits + 5 * ds.length - 8),
            radixNat 32 value ds % 2 ^ (bits + 5 * ds.length - 8),
            bits + 5 * ds.length - 8,
            rest) := by
  intro ds
  induction ds with
  | nil =>
    intro rest value bits hv _ h8 h12 _
    simp only [List.length_nil, Nat.mul_zero, Nat.add_zero] at h8 h12 ⊢
    rw [List.map_nil, List.nil_append, getByteLoop_exit rest value bits (by omega),
      radixNat_nil, shiftRight_eq_div, and_pow_two_sub_one]
  | cons d ds ih =>
    intro rest value bits hv hval h8 h12 hmin
    have hd : d < 32 := hval d (by simp)
    have hb8 : bits < 8 := by
      have := hmin 0 (by simp)
      simpa using this
    have hv58 : value < 2 ^ 58 := by
      have : (2:Nat) ^ bits ≤ 2 ^ 58 := Nat.pow_le_pow_right (by norm_num) (by omega)
      omega
    rw [List.map_cons, List.cons_append,
      getByteLoop_step (base32Digit d) _ value bits d hb8 (Base32ToVal_base32Digit d hd),
      acc_step value d hv58 hd]
    have hv' : value * 32 + d < 2 ^ (bits + 5) := by
      have : (2:Nat) ^ (bits + 5) = 2 ^ bits * 32 := by rw [pow_add]; norm_num
      omega
    have := ih rest (value * 32 + d) (bits + 5) hv'
      (fun x hx => hval x (by simp [hx]))
      (by simp only [List.length_cons] at h8 ⊢; omega)
      (by simp only [List.length_cons] at h12 ⊢; omega)
      (by
        intro j hj
        have := hmin (j + 1) (by simp only [List.length_cons]; omega)
        omega)
    rw [this, radixNat_cons]
    have hlen : bits + 5 + 5 * ds.length = bits + 5 * (d :: ds).length := by
      simp only [List.length_cons]
      ring
    rw [hlen]

theorem getByteLoop_one (d : Nat) (rest : List Char) (value bits : Nat)
    (hv : value < 2 ^ 58) (hd : d < 32) (h3 : 3 ≤ bits) (h8 : bits < 8) :
    getByteLoop (base32Digit d :: rest) value bits =
      some ((value * 32 + d) >>> (bits + 5 - 8),
        (value * 32 + d) &&& (2 ^ (bits + 5 - 8) - 1), bits + 5 - 8, rest) := by
  rw [getByteLoop_step _ _ _ _ d h8 (Base32ToVal_base32Digit d hd),
    acc_step value d hv hd, getByteLoop_exit rest _ _ (by omega)]

theorem getByteLoop_two (d1 d2 : Nat) (rest : List Char) (value bits : Nat)
    (hv : value < 2 ^ bits) (hd1 : d1 < 32) (hd2 : d2 < 32) (h3 : bits < 3) :
    getByteLoop (base32Digit d1 :: base32Digit d2 :: rest) value bits =
      some (((value * 32 + d1) * 32 + d2) >>> (bits + 5 + 5 - 8),
        ((value * 32 + d1) * 32 + d2) &&& (2 ^ (bits + 5 + 5 - 8) - 1),
        bits + 5 + 5 - 8, rest) := by
  have hvs : value < 8 := by
    have : (2:Nat) ^ bits ≤ 2 ^ 3 := Nat.pow_le_pow_right (by norm_num) (by omega)
    norm_num at this
    omega
  have hv1 : value < 2 ^ 58 := by norm_num; omega
  have hv2 : value * 32 + d1 < 2 ^ 58 := by norm_num; omega
  rw [getByteLoop_step _ _ _ _ d1 (by omega) (Base32ToVal_base32Digit d1 hd1),
    acc_step value d1 hv1 hd1,
    getByteLoop_step _ _ _ _ d2 (by omega) (Base32ToVal_base32Digit d2 hd2),
    acc_step _ d2 hv2 hd2, getByteLoop_exit rest _ _ (by omega)]

theorem readHashBytes_cons (count : Nat) (input : List Char) (value bits B v bi : Nat)
    (mid : List Char) (h : getByteLoop input value bits = some (B, v, bi, mid)) :
    readHashBytes (count + 1) input value bits =
      (readHashBytes count mid v bi).map (fun r => (B :: r.1, r.2)) := by
  rw [readHashBytes, h]
  rcases hrec : readHashBytes count mid v bi with _ | ⟨bs, v2, bi2, rest2⟩ <;>
    simp [hrec]

theorem readHashBytes_run : ∀ (count : Nat) (ds : List Nat) (rest : List Char)
    (value bits : Nat),
    value < 2 ^ bits → bits ≤ 4 → (∀ d ∈ ds, d < 32) →
    8 * count ≤ bits + 5 * ds.length → bits + 5 * ds.length ≤ 8 * count + 4 →
    ∃ bs v2 b2, readHashBytes count (List.map base32Digit ds ++ rest) value bits =
        some (bs, v2, b2, rest) ∧
      bs.length = count ∧ (∀ b ∈ bs, b < 256) ∧
      b2 = bits + 5 * ds.length - 8 * count ∧ v2 < 2 ^ b2 ∧
      radixNat 32 value ds = radixNat 256 0 bs * 2 ^ b2 + v2 := by
  intro count
  induction count with
  | zero =>
    intro ds rest value bits hv hb4 hval hlow hhigh
    have hds : ds = [] := by
      have : ds.length = 0 := by omega
      exact List.length_eq_zero.mp this
    subst hds
    exact ⟨[], value, bits, by simp [readHashBytes], rfl, by simp, by simp, hv,
      by simp [radixNat_nil, radixNat]⟩
  | succ count ih =>
    intro ds rest value bits hv hb4 hval hlow hhigh
    have hv58 : value < 2 ^ 58 := by
      have : (2:Nat) ^ bits ≤ 2 ^ 58 := Nat.pow_le_pow_right (by norm_num) (by omega)
      omega
    by_cases hsplit : 3 ≤ bits
    · -- one more digit completes the next byte
      rcases ds with _ | ⟨d, ds'⟩
      · simp only [List.length_nil] at hlow
        omega
      simp only [List.length_cons] at hlow hhigh
      have hd : d < 32 := hval d (by simp)
      set T := value * 32 + d with hTdef
      set e := bits + 5 - 8 with hedef
      set M := T &&& (2 ^ e - 1) with hMdef
      set A := T >>> e with hAdef
      have hTlt : T < 2 ^ (e + 8) := by
        have h1 : (2:Nat) ^ (e + 8) = 2 ^ bits * 32 := by
          rw [show e + 8 = bits + 5 by omega, pow_add]
          norm_num
        omega
      have hBlt : A < 256 := by
        rw [hAdef, shiftRight_eq_div,
          Nat.div_lt_iff_lt_mul (Nat.pos_pow_of_pos _ (by norm_num))]
        calc T < 2 ^ (e + 8) := hTlt
          _ = 256 * 2 ^ e := by
            rw [show (256:Nat) = 2 ^ 8 from rfl, ← pow_add]
            congr 1
            omega
      have hv' : M < 2 ^ e := by
        rw [hMdef, and_pow_two_sub_one]
        exact Nat.mod_lt _ (Nat.pos_pow_of_pos _ (by norm_num))
      obtain ⟨bs', v2, b2, hrec, hlen', hval', hb2, hv2, hrad⟩ :=
        ih ds' rest M e hv' (by omega)
          (fun x hx => hval x (by simp [hx])) (by omega) (by omega)
      refine ⟨A :: bs', v2, b2, ?_, by simp [hlen'], ?_, by simp; omega, hv2, ?_⟩
      · rw [List.map_cons, List.cons_append,
          readHashBytes_cons count _ value bits A M e
            (List.map base32Digit ds' ++ rest)
            (getByteLoop_one d _ value bits hv58 hd hsplit (by omega)),
          hrec]
        rfl
      · intro b hbmem
        rcases List.mem_cons.mp hbmem with h | h
        · omega
        · exact hval' b h
      · have hTsplit : T = A * 2 ^ e + M := by
          rw [hAdef, hMdef, shiftRight_eq_div, and_pow_two_sub_one, Nat.mul_comm]
          exact (Nat.div_add_mod T _).symm
        have hexp2 : (2:Nat) ^ e * 2 ^ (5 * ds'.length) = 2 ^ (8 * count) * 2 ^ b2 := by
          rw [← pow_add, ← pow_add]
          congr 1
          omega
        have hradx : M * 2 ^ (5 * ds'.length) + radixNat 32 0 ds' =
            radixNat 256 0 bs' * 2 ^ b2 + v2 := by
          rw [← pow32_eq, ← radixNat_shift 32 ds' M]
          exact hrad
        have hcons : radixNat 256 0 (A :: bs') =
            A * 2 ^ (8 * count) + radixNat 256 0 bs' := by
          rw [radixNat_cons, radixNat_shift 256 bs', pow256_eq, hlen']
          ring
        have hLft : radixNat 32 value (d :: ds') =
            T * 2 ^ (5 * ds'.length) + radixNat 32 0 ds' := by
          rw [radixNat_cons, ← hTdef, radixNat_shift 32 ds' T, pow32_eq]
        rw [hLft, hcons]
        calc T * 2 ^ (5 * ds'.length) + radixNat 32 0 ds'
            = (A * 2 ^ e + M) * 2 ^ (5 * ds'.length) + radixNat 32 0 ds' := by
              rw [← hTsplit]
          _ = A * (2 ^ e * 2 ^ (5 * ds'.length)) +
              (M * 2 ^ (5 * ds'.length) + radixNat 32 0 ds') := by ring
          _ = A * (2 ^ (8 * count) * 2 ^ b2) + (radixNat 256 0 bs' * 2 ^ b2 + v2) := by
              rw [hexp2, hradx]
          _ = (A * 2 ^ (8 * count) + radixNat 256 0 bs') * 2 ^ b2 + v2 := by ring
    · -- two more digits are needed for the next byte
      rcases ds with _ | ⟨d1, _ | ⟨d2, ds'⟩⟩
      · simp only [List.length_nil] at hlow
        omega
      · simp only [List.length_cons, List.length_nil] at hlow hhigh
        omega
      simp only [List.length_cons] at hlow hhigh
      have hd1 : d1 < 32 := hval d1 (by simp)
      have hd2 : d2 < 32 := hval d2 (by simp)
      set T := (value * 32 + d1) * 32 + d2 with hTdef
      set e := bits + 5 + 5 - 8 with hedef
      set M := T &&& (2 ^ e - 1) with hMdef
      set A := T >>> e with hAdef
      have hTlt : T < 2 ^ (e + 8) := by
        have h1 : (2:Nat) ^ (e + 8) = 2 ^ bits * 32 * 32 := by
          rw [show e + 8 = bits + 10 by omega, pow_add]
          norm_num
          ring
        rw [h1, hTdef]
        nlinarith [hv, hd1, hd2]
      have hBlt : A < 256 := by
        rw [hAdef, shiftRight_eq_div,
          Nat.div_lt_iff_lt_mul (Nat.pos_pow_of_pos _ (by norm_num))]
        calc T < 2 ^ (e + 8) := hTlt
          _ = 256 * 2 ^ e := by
            rw [show (256:Nat) = 2 ^ 8 from rfl, ← pow_add]
            congr 1
            omega
      have hv' : M < 2 ^ e := by
        rw [hMdef, and_pow_two_sub_one]
        exact Nat.mod_lt _ (Nat.pos_pow_of_pos _ (by norm_num))
      obtain ⟨bs', v2, b2, hrec, hlen', hval', hb2, hv2, hrad⟩ :=
        ih ds' rest M e hv' (by omega)
          (fun x hx => hval x (by simp [hx])) (by omega) (by omega)
      refine ⟨A :: bs', v2, b2, ?_, by simp [hlen'], ?_, by simp; omega, hv2, ?_⟩
      · rw [List.map_cons, List.map_cons, List.cons_append, List.cons_append,
          readHashBytes_cons count _ value bits A M e
            (List.map base32Digit ds' ++ rest)
            (getByteLoop_two d1 d2 _ value bits hv hd1 hd2 (by omega)),
          hrec]
        rfl
      · intro b hbmem
        rcases List.mem_cons.mp hbmem with h | h
        · omega
        · exact hval' b h
      · have hTsplit : T = A * 2 ^ e + M := by
          rw [hAdef, hMdef, shiftRight_eq_div, and_pow_two_sub_one, Nat.mul_comm]
          exact (Nat.div_add_mod T _).symm
        have hexp2 : (2:Nat) ^ e * 2 ^ (5 * ds'.length) = 2 ^ (8 * count) * 2 ^ b2 := by
          rw [← pow_add, ← pow_add]
          congr 1
          omega
        have hradx : M * 2 ^ (5 * ds'.length) + radixNat 32 0 ds' =
            radixNat 256 0 bs' * 2 ^ b2 + v2 := by
          rw [← pow32_eq, ← radixNat_shift 32 ds' M]
          exact hrad
        have hcons : radixNat 256 0 (A :: bs') =
            A * 2 ^ (8 * count) + radixNat 256 0 bs' := by
          rw [radixNat_cons, radixNat_shift 256 bs', pow256_eq, hlen']
          ring
        have hLft : radixNat 32 value (d1 :: d2 :: ds') =
            T * 2 ^ (5 * ds'.length) + radixNat 32 0 ds' := by
          rw [radixNat_cons, radixNat_cons, ← hTdef, radixNat_shift 32 ds' T, pow32_eq]
        rw [hLft, hcons]
        calc T * 2 ^ (5 * ds'.length) + radixNat 32 0 ds'
            = (A * 2 ^ e + M) * 2 ^ (5 * ds'.length) + radixNat 32 0 ds' := by
              rw [← hTsplit]
          _ = A * (2 ^ e * 2 ^ (5 * ds'.length)) +
              (M * 2 ^ (5 * ds'.length) + radixNat 32 0 ds') := by ring
          _ = A * (2 ^ (8 * count) * 2 ^ b2) + (radixNat 256 0 bs' * 2 ^ b2 + v2) := by
              rw [hexp2, hradx]
          _ = (A * 2 ^ (8 * count) + radixNat 256 0 bs') * 2 ^ b2 + v2 := by ring

theorem readSize_run : ∀ (ds : List Nat) (value bits : Nat),
    (∀ d ∈ ds, d < 32) → radixNat 32 value ds < 2 ^ 63 →
    readSize (List.map base32Digit ds) value bits =
      some (radixNat 32 value ds, bits + 5 * ds.length) := by
  intro ds
  induction ds with
  | nil =>
    intro value bits _ _
    simp [readSize, radixNat_nil]
  | cons d ds ih =>
    intro value bits hval hlt
    have hd : d < 32 := hval d (by simp)
    have hge : value * 32 ^ (d :: ds).length ≤ radixNat 32 value (d :: ds) :=
      radixNat_le 32 value (d :: ds)
    have h32 : (32:Nat) ≤ 32 ^ (d :: ds).length := by
      calc (32:Nat) = 32 ^ 1 := by norm_num
        _ ≤ 32 ^ (d :: ds).length := Nat.pow_le_pow_right (by norm_num) (by simp)
    have hv58 : value < 2 ^ 58 := by
      have hb : value * 32 ≤ radixNat 32 value (d :: ds) := by nlinarith
      norm_num
      omega
    have hguard : 6 ≤ clz64 value := (clz64_ge_six_iff value).mpr hv58
    rw [List.map_cons]
    rw [show readSize (base32Digit d :: List.map base32Digit ds) value bits =
        readSize (List.map base32Digit ds) (((value <<< 5) ||| d) % 2 ^ 64) (bits + 5) by
      simp [readSize, Base32ToVal_base32Digit d hd, hguard]]
    rw [acc_step value d hv58 hd]
    have := ih (value * 32 + d) (bits + 5) (fun x hx => hval x (by simp [hx]))
      (by rwa [← radixNat_cons])
    rw [this, ← radixNat_cons]
    congr 1
    simp only [List.length_cons]
    ring_nf

theorem euclid_uniq (Q A B r s : Nat) (hQ : 0 < Q) (hr : r < Q) (hs : s < Q)
    (h : A * Q + r = B * Q + s) : A = B ∧ r = s := by
  have hA : (A * Q + r) / Q = A := by
    rw [Nat.mul_comm A Q, Nat.mul_add_div hQ, Nat.div_eq_of_lt hr]
    omega
  have hB : (B * Q + s) / Q = B := by
    rw [Nat.mul_comm B Q, Nat.mul_add_div hQ, Nat.div_eq_of_lt hs]
    omega
  have hAB : A = B := by rw [← hA, ← hB, h]
  constructor
  · exact hAB
  · subst hAB
    omega

theorem fromBase32_toBase32 (hb : List Nat) (size : Nat)
    (hvb : ∀ b ∈ hb, b < 256) (hsz : size < 2 ^ 63) :
    FromBase32 hb.length (ToBase32 hb size) = some (hb, size) := by
  have hsz64 : size < 2 ^ 64 := lt_trans hsz (by norm_num)
  obtain ⟨DS, hmap, hdval, hdlen, hdrad⟩ := ToBase32_spec hb size hvb hsz
  set l := hb.length with hldef
  set sb := RoundUp (bitWidth size + 8 * l) 5 - 8 * l with hsbdef
  obtain ⟨hr1, hr2, hr3⟩ := roundUp5_facts (bitWidth size + 8 * l)
  -- the hash phase consumes the first m0 digits
  set m0 := (8 * l + 4) / 5 with hm0def
  have hm0a : 8 * l ≤ 5 * m0 := by omega
  have hm0b : 5 * m0 ≤ 8 * l + 4 := by omega
  have hm0len : m0 ≤ DS.length := by omega
  set DS1 := DS.take m0 with hDS1
  set DS2 := DS.drop m0 with hDS2
  have hDSsplit : DS = DS1 ++ DS2 := (List.take_append_drop m0 DS).symm
  have hlen1 : DS1.length = m0 := by
    rw [hDS1, List.length_take]
    omega
  have hlen2 : DS2.length = DS.length - m0 := by
    rw [hDS2, List.length_drop]
  have hval1 : ∀ d ∈ DS1, d < 32 := fun d h => hdval d (hDSsplit ▸ List.mem_append.mpr (Or.inl h))
  have hval2 : ∀ d ∈ DS2, d < 32 := fun d h => hdval d (hDSsplit ▸ List.mem_append.mpr (Or.inr h))
  obtain ⟨bs, v2, b2, hrun, hbslen, hbsval, hb2, hv2, hrad⟩ :=
    readHashBytes_run l DS1 (List.map base32Digit DS2) 0 0 (by norm_num) (by norm_num)
      hval1 (by omega) (by omega)
  have hb2' : b2 = 5 * m0 - 8 * l := by omega
  -- relate the two radix expansions
  have hpow : (2:Nat) ^ b2 * 2 ^ (5 * DS2.length) = 2 ^ sb := by
    rw [← pow_add]
    congr 1
    omega
  have hX : radixNat 32 0 DS = radixNat 256 0 bs * 2 ^ sb +
      radixNat 32 v2 DS2 := by
    have h1 : radixNat 32 0 DS = radixNat 32 (radixNat 32 0 DS1) DS2 := by
      conv_lhs => rw [hDSsplit]
      rw [radixNat_append]
    have h2 : radixNat 32 (radixNat 32 0 DS1) DS2 =
        (radixNat 256 0 bs * 2 ^ b2 + v2) * 2 ^ (5 * DS2.length) +
          radixNat 32 0 DS2 := by
      rw [radixNat_shift 32 DS2, pow32_eq, hrad]
    have h3 : radixNat 32 v2 DS2 = v2 * 2 ^ (5 * DS2.length) + radixNat 32 0 DS2 := by
      rw [radixNat_shift 32 DS2, pow32_eq]
    rw [h1, h2, h3]
    calc (radixNat 256 0 bs * 2 ^ b2 + v2) * 2 ^ (5 * DS2.length) + radixNat 32 0 DS2
        = radixNat 256 0 bs * (2 ^ b2 * 2 ^ (5 * DS2.length)) +
          (v2 * 2 ^ (5 * DS2.length) + radixNat 32 0 DS2) := by ring
      _ = radixNat 256 0 bs * 2 ^ sb +
          (v2 * 2 ^ (5 * DS2.length) + radixNat 32 0 DS2) := by rw [hpow]
  have hrem_lt : radixNat 32 v2 DS2 < 2 ^ sb := by
    have hlt := radixNat_lt 32 v2 (2 ^ b2) (by norm_num) DS2 hv2 hval2
    rw [pow32_eq, ← pow_add] at hlt
    have hexp : b2 + 5 * DS2.length = sb := by omega
    rwa [hexp] at hlt
  have hsize_lt : size < 2 ^ sb := by
    have h1 : bitWidth size ≤ sb := by omega
    exact lt_of_lt_of_le (lt_two_pow_bitWidth size)
      (Nat.pow_le_pow_right (by norm_num) h1)
  have huniq := euclid_uniq (2 ^ sb) (radixNat 256 0 bs) (radixNat 256 0 hb)
    (radixNat 32 v2 DS2) size (Nat.pos_pow_of_pos _ (by norm_num)) hrem_lt hsize_lt
    (by rw [← hX, hdrad])
  have hbs_eq : bs = hb := by
    apply radixNat_inj 256 (by norm_num) bs hb (by omega) hbsval hvb
    exact huniq.1
  have hrem_eq : radixNat 32 v2 DS2 = size := huniq.2
  -- run the size phase
  have hsizerun := readSize_run DS2 v2 b2 hval2 (by rw [hrem_eq]; exact hsz)
  rw [hrem_eq] at hsizerun
  -- assemble FromBase32
  rw [hmap]
  conv_lhs => rw [hDSsplit]
  rw [List.map_append]
  have hb2fin : b2 + 5 * DS2.length = sb := by omega
  rw [hb2fin] at hsizerun
  have hcheck : ¬ 5 ≤ sb - (64 - clz64 size) := by
    rw [sub_clz64_eq size hsz64]
    omega
  simp only [FromBase32, hrun, hsizerun, if_neg hcheck, hbs_eq]

/-- Relation between an input character list and its digit values. -/
def DecodesTo (cs : List Char) (ds : List Nat) : Prop :=
  List.Forall₂ (fun c d => Base32ToVal c = some d) cs ds

theorem decodesTo_lt {cs : List Char} {ds : List Nat} (h : DecodesTo cs ds) :
    ∀ d ∈ ds, d < 32 := by
  induction h with
  | nil => intro d hd; simp at hd
  | cons hcd _ ih =>
    intro d hd
    rcases List.mem_cons.mp hd with h | h
    · subst h
      exact Base32ToVal_lt _ _ hcd
    · exact ih d h

theorem decodesTo_toLower {cs : List Char} {ds : List Nat} (h : DecodesTo cs ds) :
    cs.map Char.toLower = ds.map base32Digit := by
  induction h with
  | nil => rfl
  | cons hcd _ ih =>
    simp only [List.map_cons, ih, List.cons.injEq]
    exact ⟨toLower_eq_base32Digit _ _ hcd, trivial⟩

theorem decodesTo_append {cs₁ cs₂ : List Char} {ds₁ ds₂ : List Nat}
    (h₁ : DecodesTo cs₁ ds₁) (h₂ : DecodesTo cs₂ ds₂) :
    DecodesTo (cs₁ ++ cs₂) (ds₁ ++ ds₂) := by
  induction h₁ with
  | nil => exact h₂
  | cons hcd _ ih => exact List.Forall₂.cons hcd ih

theorem getByteLoop_inv : ∀ (input : List Char) (value bits B v2 b2 : Nat)
    (rest : List Char),
    getByteLoop input value bits = some (B, v2, b2, rest) → value < 2 ^ bits →
    ∃ cs ds, input = cs ++ rest ∧ DecodesTo cs ds ∧
      8 ≤ bits + 5 * ds.length ∧ (ds = [] ∨ bits + 5 * ds.length ≤ 12) ∧
      b2 = bits + 5 * ds.length - 8 ∧
      B = radixNat 32 value ds >>> b2 ∧
      v2 = radixNat 32 value ds % 2 ^ b2 := by
  intro input
  induction input with
  | nil =>
    intro value bits B v2 b2 rest h hv
    rw [getByteLoop] at h
    by_cases hb : bits < 8
    · rw [if_pos hb] at h
      exact absurd h (by simp)
    · rw [if_neg hb] at h
      simp only [Option.some.injEq, Prod.mk.injEq] at h
      obtain ⟨hB, hvv, hbb, hrr⟩ := h
      refine ⟨[], [], by simp [hrr], List.Forall₂.nil, ?_, Or.inl rfl, ?_, ?_, ?_⟩
      · simp only [List.length_nil, Nat.mul_zero, Nat.add_zero]
        omega
      · simp only [List.length_nil, Nat.mul_zero, Nat.add_zero]
        omega
      · rw [radixNat_nil, ← hB, hbb]
      · rw [radixNat_nil, ← hvv, hbb, and_pow_two_sub_one]
  | cons c rest₀ ih =>
    intro value bits B v2 b2 rest h hv
    by_cases hb : bits < 8
    · rw [getByteLoop, if_pos hb] at h
      rcases hBd : Base32ToVal c with _ | d
      · simp [hBd] at h
      simp only [hBd] at h
      have hd : d < 32 := Base32ToVal_lt c d hBd
      have hv58 : value < 2 ^ 58 := by
        have : (2:Nat) ^ bits ≤ 2 ^ 58 := Nat.pow_le_pow_right (by norm_num) (by omega)
        omega
      rw [acc_step value d hv58 hd] at h
      have hv' : value * 32 + d < 2 ^ (bits + 5) := by
        have : (2:Nat) ^ (bits + 5) = 2 ^ bits * 32 := by rw [pow_add]; norm_num
        omega
      obtain ⟨cs', ds', hsplit, hdec, h8, h12, hb2, hB, hv2⟩ :=
        ih (value * 32 + d) (bits + 5) B v2 b2 rest h hv'
      refine ⟨c :: cs', d :: ds', by simp [hsplit], List.Forall₂.cons hBd hdec,
        ?_, ?_, ?_, ?_, ?_⟩
      · simp only [List.length_cons]
        omega
      · right
        rcases h12 with h12 | h12
        · subst h12
          simp only [List.length_cons, List.length_nil]
          omega
        · simp only [List.length_cons] at h12 ⊢
          omega
      · simp only [List.length_cons]
        omega
      · rw [hB, radixNat_cons]
      · rw [hv2, radixNat_cons]
    · rw [getByteLoop, if_neg hb] at h
      simp only [Option.some.injEq, Prod.mk.injEq] at h
      obtain ⟨hB, hvv, hbb, hrr⟩ := h
      refine ⟨[], [], by simp [hrr], List.Forall₂.nil, ?_, Or.inl rfl, ?_, ?_, ?_⟩
      · simp only [List.length_nil, Nat.mul_zero, Nat.add_zero]
        omega
      · simp only [List.length_nil, Nat.mul_zero, Nat.add_zero]
        omega
      · rw [radixNat_nil, ← hB, hbb]
      · rw [radixNat_nil, ← hvv, hbb, and_pow_two_sub_one]

theorem readHashBytes_inv : ∀ (count : Nat) (input : List Char) (value bits : Nat)
    (bs : List Nat) (v2 b2 : Nat) (rest : List Char),
    readHashBytes count input value bits = some (bs, v2, b2, rest) →
    value < 2 ^ bits → bits ≤ 4 →
    ∃ cs ds, input = cs ++ rest ∧ DecodesTo cs ds ∧
      bs.length = count ∧ (∀ b ∈ bs, b < 256) ∧
      bits + 5 * ds.length = 8 * count + b2 ∧ b2 ≤ 4 ∧ v2 < 2 ^ b2 ∧
      radixNat 32 value ds = radixNat 256 0 bs * 2 ^ b2 + v2 := by
  intro count
  induction count with
  | zero =>
    intro input value bits bs v2 b2 rest h hv hb4
    rw [readHashBytes] at h
    simp only [Option.some.injEq, Prod.mk.injEq] at h
    obtain ⟨hbs, hvv, hbb, hrr⟩ := h
    refine ⟨[], [], by simp [hrr], List.Forall₂.nil, by simp [← hbs], ?_, ?_, ?_, ?_, ?_⟩
    · intro b hb
      rw [← hbs] at hb
      simp at hb
    · simp only [List.length_nil, Nat.mul_zero, Nat.add_zero]
      omega
    · omega
    · rw [← hvv, ← hbb]
      exact hv
    · rw [radixNat_nil, ← hbs, ← hvv]
      simp [radixNat]
  | succ count ih =>
    intro input value bits bs v2 b2 rest h hv hb4
    rw [readHashBytes] at h
    rcases hgb : getByteLoop input value bits with _ | ⟨B, v, bi, mid⟩
    · simp [hgb] at h
    simp only [hgb] at h
    rcases hrec : readHashBytes count mid v bi with _ | ⟨bs', v2x, b2x, rest2⟩
    · simp [hrec] at h
    simp only [hrec] at h
    simp only [Option.some.injEq, Prod.mk.injEq] at h
    obtain ⟨hbs, hvv, hbb, hrr⟩ := h
    subst hbs
    subst hvv
    subst hbb
    subst hrr
    obtain ⟨cs₁, ds₁, hsplit₁, hdec₁, h8, h12, hbi, hB, hvmid⟩ :=
      getByteLoop_inv input value bits B v bi mid hgb hv
    have hds₁ne : ds₁ ≠ [] := by
      intro hnil
      subst hnil
      simp only [List.length_nil, Nat.mul_zero, Nat.add_zero] at h8
      omega
    have h12' : bits + 5 * ds₁.length ≤ 12 := by
      rcases h12 with h12 | h12
      · exact absurd h12 hds₁ne
      · exact h12
    set T := radixNat 32 value ds₁ with hTdef
    have hTlt : T < 2 ^ (bits + 5 * ds₁.length) := by
      have := radixNat_lt 32 value (2 ^ bits) (by norm_num) ds₁ hv
        (decodesTo_lt hdec₁)
      rwa [pow32_eq, ← pow_add] at this
    have hvmid_lt : v < 2 ^ bi := by
      rw [hvmid]
      exact Nat.mod_lt _ (Nat.pos_pow_of_pos _ (by norm_num))
    obtain ⟨cs₂, ds₂, hsplit₂, hdec₂, hlen₂, hval₂, hsum₂, hb2x4, hv2x, hrad₂⟩ :=
      ih mid v bi bs' v2x b2x rest2 hrec hvmid_lt (by omega)
    have hBlt : B < 256 := by
      rw [hB, shiftRight_eq_div, hbi,
        Nat.div_lt_iff_lt_mul (Nat.pos_pow_of_pos _ (by norm_num))]
      calc T < 2 ^ (bits + 5 * ds₁.length) := hTlt
        _ = 256 * 2 ^ (bits + 5 * ds₁.length - 8) := by
          rw [show (256:Nat) = 2 ^ 8 from rfl, ← pow_add]
          congr 1
          omega
    refine ⟨cs₁ ++ cs₂, ds₁ ++ ds₂, ?_, decodesTo_append hdec₁ hdec₂, ?_, ?_,
      ?_, by omega, hv2x, ?_⟩
    · rw [hsplit₁, hsplit₂, List.append_assoc]
    · simp [hlen₂]
    · intro b hbmem
      rcases List.mem_cons.mp hbmem with hx | hx
      · omega
      · exact hval₂ b hx
    · simp only [List.length_append]
      omega
    · -- the radix decomposition composes
      have hTsplit : T = B * 2 ^ bi + v := by
        rw [hB, hvmid, shiftRight_eq_div, Nat.mul_comm]
        exact (Nat.div_add_mod T _).symm
      have hexp2 : (2:Nat) ^ bi * 2 ^ (5 * ds₂.length) =
          2 ^ (8 * count) * 2 ^ b2x := by
        rw [← pow_add, ← pow_add, show bi + 5 * ds₂.length = 8 * count + b2x by omega]
      have hradx : v * 2 ^ (5 * ds₂.length) + radixNat 32 0 ds₂ =
          radixNat 256 0 bs' * 2 ^ b2x + v2x := by
        rw [← pow32_eq, ← radixNat_shift 32 ds₂ v]
        exact hrad₂
      have hcons : radixNat 256 0 (B :: bs') =
          B * 2 ^ (8 * count) + radixNat 256 0 bs' := by
        rw [radixNat_cons, radixNat_shift 256 bs', pow256_eq, hlen₂]
        ring
      have hLft : radixNat 32 value (ds₁ ++ ds₂) =
          T * 2 ^ (5 * ds₂.length) + radixNat 32 0 ds₂ := by
        rw [radixNat_append, ← hTdef, radixNat_shift 32 ds₂ T, pow32_eq]
      rw [hLft, hcons]
      calc T * 2 ^ (5 * ds₂.length) + radixNat 32 0 ds₂
          = (B * 2 ^ bi + v) * 2 ^ (5 * ds₂.length) + radixNat 32 0 ds₂ := by
            rw [← hTsplit]
        _ = B * (2 ^ bi * 2 ^ (5 * ds₂.length)) +
            (v * 2 ^ (5 * ds₂.length) + radixNat 32 0 ds₂) := by ring
        _ = B * (2 ^ (8 * count) * 2 ^ b2x) +
            (radixNat 256 0 bs' * 2 ^ b2x + v2x) := by rw [hexp2, hradx]
        _ = (B * 2 ^ (8 * count) + radixNat 256 0 bs') * 2 ^ b2x + v2x := by ring

theorem readSize_inv : ∀ (input : List Char) (value bits v2 b2 : Nat),
    readSize input value bits = some (v2, b2) → value < 2 ^ bits →
    ∃ ds, DecodesTo input ds ∧ b2 = bits + 5 * ds.length ∧
      v2 = radixNat 32 value ds ∧ v2 < 2 ^ b2 ∧ (ds = [] ∨ v2 < 2 ^ 63) := by
  intro input
  induction input with
  | nil =>
    intro value bits v2 b2 h hv
    rw [readSize] at h
    simp only [Option.some.injEq, Prod.mk.injEq] at h
    obtain ⟨hvv, hbb⟩ := h
    exact ⟨[], List.Forall₂.nil, by simp [← hbb], by rw [radixNat_nil, hvv],
      by rw [← hvv, ← hbb]; exact hv, Or.inl rfl⟩
  | cons c rest ih =>
    intro value bits v2 b2 h hv
    rw [readSize] at h
    rcases hBd : Base32ToVal c with _ | d
    · simp [hBd] at h
    simp only [hBd] at h
    have hd : d < 32 := Base32ToVal_lt c d hBd
    by_cases hg : 6 ≤ clz64 value
    · rw [if_pos hg] at h
      have hv58 : value < 2 ^ 58 := (clz64_ge_six_iff value).mp hg
      rw [acc_step value d hv58 hd] at h
      have hv' : value * 32 + d < 2 ^ (bits + 5) := by
        have : (2:Nat) ^ (bits + 5) = 2 ^ bits * 32 := by rw [pow_add]; norm_num
        omega
      obtain ⟨ds', hdec, hbb, hvv, hlt, hsmall⟩ :=
        ih (value * 32 + d) (bits + 5) v2 b2 h hv'
      refine ⟨d :: ds', List.Forall₂.cons hBd hdec, ?_, ?_, hlt, ?_⟩
      · simp only [List.length_cons]
        omega
      · rw [hvv, radixNat_cons]
      · right
        rcases hsmall with hnil | hsm
        · subst hnil
          rw [radixNat_nil] at hvv
          norm_num
          omega
        · exact hsm
    · rw [if_neg hg] at h
      exact absurd h (by simp)

theorem toBase32_fromBase32 (numBytes : Nat) (s : List Char) (bytes : List Nat)
    (size : Nat) (h : FromBase32 numBytes s = some (bytes, size)) :
    ToBase32 bytes size = s.map Char.toLower := by
  unfold FromBase32 at h
  rcases hrh : readHashBytes numBytes s 0 0 with _ | ⟨bs0, v1, b1, rest⟩
  · simp [hrh] at h
  simp only [hrh] at h
  rcases hrs : readSize rest v1 b1 with _ | ⟨v2, b2⟩
  · simp [hrs] at h
  simp only [hrs] at h
  by_cases hc : 5 ≤ b2 - (64 - clz64 v2)
  · rw [if_pos hc] at h
    exact absurd h (by simp)
  rw [if_neg hc] at h
  simp only [Option.some.injEq, Prod.mk.injEq] at h
  obtain ⟨hbytes, hsize⟩ := h
  obtain ⟨cs₁, ds₁, hsplit₁, hdec₁, hlen₁, hval₁, hsum₁, hb14, hv1lt, hrad₁⟩ :=
    readHashBytes_inv numBytes s 0 0 bs0 v1 b1 rest hrh (by norm_num) (by norm_num)
  obtain ⟨ds₂, hdec₂, hb2eq, hv2eq, hv2lt, hsmall⟩ :=
    readSize_inv rest v1 b1 v2 b2 hrs hv1lt
  have hsz63 : v2 < 2 ^ 63 := by
    rcases hsmall with hnil | hsm
    · subst hnil
      rw [radixNat_nil] at hv2eq
      have : (2:Nat) ^ b1 ≤ 2 ^ 63 := Nat.pow_le_pow_right (by norm_num) (by omega)
      omega
    · exact hsm
  have hsz64 : v2 < 2 ^ 64 := lt_trans hsz63 (by norm_num)
  have hbw64 : 64 - clz64 v2 = bitWidth v2 := sub_clz64_eq v2 hsz64
  have hbwb2 : bitWidth v2 ≤ b2 := (bitWidth_le_iff v2 b2).mpr hv2lt
  have hb2bw : b2 < bitWidth v2 + 5 := by omega
  subst hbytes
  subst hsize
  obtain ⟨DS, hmap, hdval, hdlen, hdrad⟩ := ToBase32_spec bs0 v2 hval₁ hsz63
  rw [hlen₁] at hdlen hdrad
  set sb := RoundUp (bitWidth v2 + 8 * numBytes) 5 - 8 * numBytes with hsbdef
  obtain ⟨hr1, hr2, hr3⟩ := roundUp5_facts (bitWidth v2 + 8 * numBytes)
  have hlendec₁ : cs₁.length = ds₁.length := List.Forall₂.length_eq hdec₁
  have hlendec₂ : rest.length = ds₂.length := List.Forall₂.length_eq hdec₂
  have hsbb2 : sb = b2 := by omega
  -- the digit values of the input string
  have hrad' : radixNat 32 0 (ds₁ ++ ds₂) = radixNat 256 0 bs0 * 2 ^ b2 + v2 := by
    have h1 : radixNat 32 0 (ds₁ ++ ds₂) =
        radixNat 32 (radixNat 32 0 ds₁) ds₂ := radixNat_append 32 0 ds₁ ds₂
    have h2 : radixNat 32 (radixNat 32 0 ds₁) ds₂ =
        (radixNat 256 0 bs0 * 2 ^ b1 + v1) * 2 ^ (5 * ds₂.length) +
          radixNat 32 0 ds₂ := by
      rw [radixNat_shift 32 ds₂, pow32_eq, hrad₁]
    have h3 : radixNat 32 v1 ds₂ = v1 * 2 ^ (5 * ds₂.length) + radixNat 32 0 ds₂ := by
      rw [radixNat_shift 32 ds₂, pow32_eq]
    have hpow : (2:Nat) ^ b1 * 2 ^ (5 * ds₂.length) = 2 ^ b2 := by
      rw [← pow_add]
      congr 1
      omega
    rw [h1, h2, hv2eq, h3]
    calc (radixNat 256 0 bs0 * 2 ^ b1 + v1) * 2 ^ (5 * ds₂.length) +
          radixNat 32 0 ds₂
        = radixNat 256 0 bs0 * (2 ^ b1 * 2 ^ (5 * ds₂.length)) +
          (v1 * 2 ^ (5 * ds₂.length) + radixNat 32 0 ds₂) := by ring
      _ = radixNat 256 0 bs0 * 2 ^ b2 +
          (v1 * 2 ^ (5 * ds₂.length) + radixNat 32 0 ds₂) := by rw [hpow]
  have hDSeq : ds₁ ++ ds₂ = DS := by
    apply radixNat_inj 32 (by norm_num) (ds₁ ++ ds₂) DS
    · simp only [List.length_append]
      omega
    · intro d hd
      rcases List.mem_append.mp hd with hx | hx
      · exact decodesTo_lt hdec₁ d hx
      · exact decodesTo_lt hdec₂ d hx
    · exact hdval
    · rw [hrad', hdrad, hsbb2]
  rw [hmap, ← hDSeq, List.map_append, ← decodesTo_toLower hdec₁,
    ← decodesTo_toLower hdec₂, ← List.map_append, ← hsplit₁]

theorem fromBase32_success_shape (numBytes : Nat) (s : List Char)
    (bytes : List Nat) (size : Nat)
    (h : FromBase32 numBytes s = some (bytes, size)) :
    bytes.length = numBytes ∧ (∀ b ∈ bytes, b < 256) ∧ size < 2 ^ 63 ∧
    8 * numBytes + bitWidth size ≤ 5 * s.length ∧
    5 * s.length < 8 * numBytes + bitWidth size + 5 := by
  unfold FromBase32 at h
  rcases hrh : readHashBytes numBytes s 0 0 with _ | ⟨bs0, v1, b1, rest⟩
  · simp [hrh] at h
  simp only [hrh] at h
  rcases hrs : readSize rest v1 b1 with _ | ⟨v2, b2⟩
  · simp [hrs] at h
  simp only [hrs] at h
  by_cases hc : 5 ≤ b2 - (64 - clz64 v2)
  · rw [if_pos hc] at h
    exact absurd h (by simp)
  rw [if_neg hc] at h
  simp only [Option.some.injEq, Prod.mk.injEq] at h
  obtain ⟨hbytes, hsize⟩ := h
  subst hbytes
  subst hsize
  obtain ⟨cs₁, ds₁, hsplit₁, hdec₁, hlen₁, hval₁, hsum₁, hb14, hv1lt, hrad₁⟩ :=
    readHashBytes_inv numBytes s 0 0 bs0 v1 b1 rest hrh (by norm_num) (by norm_num)
  obtain ⟨ds₂, hdec₂, hb2eq, hv2eq, hv2lt, hsmall⟩ :=
    readSize_inv rest v1 b1 v2 b2 hrs hv1lt
  have hsz63 : v2 < 2 ^ 63 := by
    rcases hsmall with hnil | hsm
    · subst hnil
      rw [radixNat_nil] at hv2eq
      have : (2:Nat) ^ b1 ≤ 2 ^ 63 := Nat.pow_le_pow_right (by norm_num) (by omega)
      omega
    · exact hsm
  have hsz64 : v2 < 2 ^ 64 := lt_trans hsz63 (by norm_num)
  have hbw64 : 64 - clz64 v2 = bitWidth v2 := sub_clz64_eq v2 hsz64
  have hbwb2 : bitWidth v2 ≤ b2 := (bitWidth_le_iff v2 b2).mpr hv2lt
  have hlendec₁ : cs₁.length = ds₁.length := List.Forall₂.length_eq hdec₁
  have hlendec₂ : rest.length = ds₂.length := List.Forall₂.length_eq hdec₂
  have hslen : s.length = cs₁.length + rest.length := by
    rw [hsplit₁, List.length_append]
  exact ⟨hlen₁, hval₁, hsz63, by omega, by omega⟩

/-- C1: the content-ID base-32 codec round-trips.  For every digest
(byte list) and nonnegative 63-bit size, decoding the encoding yields
the original pair (`HashAndSize::FromBase32(hs.ToBase32()) == hs`), and
whenever decoding a string succeeds, re-encoding the decoded value
yields the lowercased input (`FromBase32(s).ToBase32() ==
lowercase(s)`). -/
theorem base32_codec_roundtrip :
    (∀ (hashBytes : List Nat) (size : Nat), (∀ b ∈ hashBytes, b < 256) →
      size < 2 ^ 63 →
      FromBase32 hashBytes.length (ToBase32 hashBytes size) =
        some (hashBytes, size)) ∧
    (∀ (numBytes : Nat) (s : List Char) (bytes : List Nat) (size : Nat),
      FromBase32 numBytes s = some (bytes, size) →
      ToBase32 bytes size = s.map Char.toLower) :=
  ⟨fromBase32_toBase32, toBase32_fromBase32⟩

/-- Witness for C1 at the concrete content ID (digest `0xaa`, size 4),
whose canonical encoding is `"n84"` (mirrors hash_test.cc). -/
theorem base32_codec_roundtrip_witness :
    FromBase32 1 (ToBase32 [0xaa] 4) = some ([0xaa], 4) ∧
    ToBase32 [0xaa] 4 = "N84".toList.map Char.toLower :=
  ⟨base32_codec_roundtrip.1 [0xaa] 4 (by decide) (by decide),
   base32_codec_roundtrip.2 1 "N84".toList [0xaa] 4 (by decide)⟩

/-- C5: canonical minimality of the decoder.  Every accepted base-32
string has fewer than 5 leading zero padding bits in its size portion
(the padding is `5 * s.length - 8 * numBytes - bitWidth size`), i.e.
any string with ≥ 5 padding bits is rejected; consequently each
(digest, size) value has exactly one accepted string up to letter
case. -/
theorem base32_canonical_minimality :
    (∀ (numBytes : Nat) (s : List Char) (bytes : List Nat) (size : Nat),
      FromBase32 numBytes s = some (bytes, size) →
      5 * s.length < 8 * numBytes + bitWidth size + 5) ∧
    (∀ (numBytes : Nat) (s₁ s₂ : List Char) (bytes : List Nat) (size : Nat),
      FromBase32 numBytes s₁ = some (bytes, size) →
      FromBase32 numBytes s₂ = some (bytes, size) →
      s₁.map Char.toLower = s₂.map Char.toLower) := by
  constructor
  · intro numBytes s bytes size h
    exact (fromBase32_success_shape numBytes s bytes size h).2.2.2.2
  · intro numBytes s₁ s₂ bytes size h₁ h₂
    rw [← toBase32_fromBase32 numBytes s₁ bytes size h₁,
      ← toBase32_fromBase32 numBytes s₂ bytes size h₂]

/-- Witness for C5: the accepted string `"n84"` has padding < 5 bits,
and the mixed-case decodings of `"n84"` and `"N84"` agree up to case. -/
theorem base32_canonical_minimality_witness :
    5 * ("n84".toList).length < 8 * 1 + bitWidth 4 + 5 ∧
    ("n84".toList).map Char.toLower = ("N84".toList).map Char.toLower :=
  ⟨base32_canonical_minimality.1 1 "n84".toList [0xaa] 4 (by decide),
   base32_canonical_minimality.2 1 "n84".toList "N84".toList [0xaa] 4
     (by decide) (by decide)⟩

/-! ## Claims C2, C3 and C4 -/

/-- C2, code evaluated at the failing input: starting from a fresh
`StreamBufferQueue` (2 buffers budget), enqueue buffer contents 1 then
2. `Dequeue` yields buffer 2 — the most recently enqueued one — because
the code pops `filled_.back()`.  FIFO order (required by the claim, by
the comments inside `Dequeue`, and by the comment on the `filled_`
member) would yield buffer 1. -/
theorem streamBufferQueue_dequeue_pops_newest :
    (((StreamBufferQueue.mk [] [] 2).Enqueue 1).bind
        (fun q => q.Enqueue 2)).bind StreamBufferQueue.Dequeue =
      some (2, StreamBufferQueue.mk [2] [1] 0) := by
  rfl

theorem findFileLoop_copy_mode : ∀ (hashOf streamDest : Nat → Nat)
    (requested : Nat) (ds : List Nat) (byHash : List (Nat × Nat)),
    (findFileLoop hashOf streamDest requested true ds byHash).1 =
      (firstMatch hashOf requested ds).map
        (fun p => { path := streamDest p, already_inserted := true }) ∧
    (findFileLoop hashOf streamDest requested true ds byHash).2.1 =
      (processedCandidates hashOf requested ds).map
        (fun p => SourceAction.streamInsert p (hashOf p == requested)) := by
  intro hashOf streamDest requested ds
  induction ds with
  | nil => intro byHash; exact ⟨rfl, rfl⟩
  | cons p older ih =>
    intro byHash
    by_cases hmatch : hashOf p = requested
    · constructor
      · simp [findFileLoop, firstMatch, hmatch]
      · simp [findFileLoop, processedCandidates, hmatch]
    · have ihs := ih (match lookupHash byHash (hashOf p) with
        | some _ => byHash
        | none => (hashOf p, p) :: byHash)
      constructor
      · simp only [findFileLoop, firstMatch, if_neg hmatch]
        exact ihs.1
      · simp only [findFileLoop, processedCandidates, if_neg hmatch,
          List.map_cons]
        rw [show (hashOf p == requested) = false by simp [hmatch]]
        exact congrArg _ ihs.2

/-- C3 counterexample: in move mode (`read_only == false`) with one
size-matching candidate (path 5) whose digest matches the requested ID
7, `Fetch` hashes the candidate with a plain single-sink stream and then
move-inserts it; it never uses `StreamInsert`/the forked stream
(`FindFile` receives a null `content_store` because `Fetch` passes
`read_only_ ? &content_store : nullptr`).  This contradicts the claim
that move mode processes candidates with the forked stream. -/
theorem directoryFetch_move_mode_counterexample :
    Fetch (fun _ => 7) (fun p => p + 100) (fun p => p + 200) (fun p => p + 300)
        7 false [] [5] =
      (some 305, [SourceAction.plainStream 5, SourceAction.moveInsert 5]) := by
  rfl

/-- C3 (amended): the hot-path fusion happens in copy mode, not move
mode.  When `read_only` is true (so `Fetch` hands `FindFile` the content
store) and the requested ID is not already cached in `files_by_hash_`,
every candidate drained from the size bucket (in pop order, i.e. the
reverse of the vector) is processed with `content_store->StreamInsert`
driven by the forked stream, which hashes the candidate and writes it
into the store simultaneously; the temporary blob is kept iff the digest
matches the requested ID, and on a match the inserted path is returned
with no further copy or move. -/
theorem directoryFetch_copy_mode_fusion (hashOf streamDest copyDest moveDest :
      Nat → Nat) (requested : Nat) (byHash : List (Nat × Nat))
    (sizeBucket : List Nat)
    (hmiss : lookupHash byHash requested = none) :
    Fetch hashOf streamDest copyDest moveDest requested true byHash sizeBucket =
      ((firstMatch hashOf requested sizeBucket.reverse).map streamDest,
       (processedCandidates hashOf requested sizeBucket.reverse).map
         (fun p => SourceAction.streamInsert p (hashOf p == requested))) := by
  obtain ⟨h1, h2⟩ := findFileLoop_copy_mode hashOf streamDest requested
    sizeBucket.reverse byHash
  unfold Fetch FindFile
  rw [hmiss]
  rcases hfm : firstMatch hashOf requested sizeBucket.reverse with _ | p
  · rw [hfm] at h1
    simp only [Option.map_none'] at h1
    simp [h1, h2, hfm]
  · rw [hfm] at h1
    simp only [Option.map_some'] at h1
    simp [h1, h2, hfm]

/-- Witness for C3's amended theorem at a concrete instance: identity
hashes, bucket `[5, 6]` (so pop order is 6 then 5), requested ID 5:
candidate 6 is stream-inserted and discarded, candidate 5 is
stream-inserted, kept, and its store path returned. -/
theorem directoryFetch_copy_mode_fusion_witness :
    Fetch (fun p => p) (fun p => p + 100) (fun p => p + 200) (fun p => p + 300)
        5 true [] [5, 6] =
      (some 105, [SourceAction.streamInsert 6 false,
                  SourceAction.streamInsert 5 true]) := by
  have h := directoryFetch_copy_mode_fusion (fun p => p) (fun p => p + 100)
    (fun p => p + 200) (fun p => p + 300) 5 [] [5, 6] (by rfl)
  rw [h]
  rfl

/-- C4: deduplication on add.  Per call: after the move-insert of the
bytes into the content store, an index insert that returns `false`
(the ID already present) moves the blob on into the unused-content
store and yields `kDuplicateFile`; an insert that returns `true` yields
`kNewFile` and keeps the blob in content/.  Consequently adding `n`
files with identical bytes (to a repository that does not yet have that
ID or blob) yields exactly one such blob in content/ and `n - 1` in
unused-content/, with results `kNewFile` then `n - 1` times
`kDuplicateFile`. -/
theorem addFile_dedup :
    (∀ (hashOf : List Nat → Nat) (st : AddFileState) (b : List Nat),
      hashOf b ∈ st.index →
      AddFile hashOf st false b =
        (.kDuplicateFile,
         { index := st.index, content := st.content, unused := b :: st.unused })) ∧
    (∀ (hashOf : List Nat → Nat) (st : AddFileState) (b : List Nat),
      hashOf b ∉ st.index →
      AddFile hashOf st false b =
        (.kNewFile,
         { index := hashOf b :: st.index, content := b :: st.content,
           unused := st.unused })) ∧
    (∀ (hashOf : List Nat → Nat) (st : AddFileState) (b : List Nat) (n : Nat),
      1 ≤ n → hashOf b ∉ st.index →
      AddFiles hashOf st (List.replicate n (false, b)) =
        (.kNewFile :: List.replicate (n - 1) .kDuplicateFile,
         { index := hashOf b :: st.index, content := b :: st.content,
           unused := List.replicate (n - 1) b ++ st.unused })) ∧
    (∀ (hashOf : List Nat → Nat) (st : AddFileState) (b : List Nat) (n : Nat),
      1 ≤ n → hashOf b ∉ st.index → st.content.count b = 0 →
      st.unused.count b = 0 →
      (AddFiles hashOf st (List.replicate n (false, b))).2.content.count b = 1 ∧
      (AddFiles hashOf st (List.replicate n (false, b))).2.unused.count b
        = n - 1) := by
  have hdup : ∀ (hashOf : List Nat → Nat) (st : AddFileState) (b : List Nat),
      hashOf b ∈ st.index →
      AddFile hashOf st false b =
        (.kDuplicateFile,
         { index := st.index, content := st.content, unused := b :: st.unused }) := by
    intro hashOf st b hmem
    simp [AddFile, hmem, List.erase_cons_head]
  have hnew : ∀ (hashOf : List Nat → Nat) (st : AddFileState) (b : List Nat),
      hashOf b ∉ st.index →
      AddFile hashOf st false b =
        (.kNewFile,
         { index := hashOf b :: st.index, content := b :: st.content,
           unused := st.unused }) := by
    intro hashOf st b hmem
    simp [AddFile, hmem]
  have hrep : ∀ (k : Nat) (b : List Nat) (X : List (List Nat)),
      List.replicate k b ++ b :: X = b :: (List.replicate k b ++ X) := by
    intro k b X
    rw [show b :: X = [b] ++ X from rfl, ← List.append_assoc,
      ← List.replicate_succ', List.replicate_succ, List.cons_append]
  have hdups : ∀ (hashOf : List Nat → Nat) (b : List Nat) (k : Nat)
      (st : AddFileState), hashOf b ∈ st.index →
      AddFiles hashOf st (List.replicate k (false, b)) =
        (List.replicate k .kDuplicateFile,
         { index := st.index, content := st.content,
           unused := List.replicate k b ++ st.unused }) := by
    intro hashOf b k
    induction k with
    | zero => intro st _; simp [AddFiles]
    | succ k ih =>
      intro st hmem
      rw [List.replicate_succ, AddFiles, hdup hashOf st b hmem]
      rw [ih _ (by simpa using hmem)]
      simp [List.replicate_succ, hrep]
  have hall : ∀ (hashOf : List Nat → Nat) (st : AddFileState) (b : List Nat)
      (n : Nat), 1 ≤ n → hashOf b ∉ st.index →
      AddFiles hashOf st (List.replicate n (false, b)) =
        (.kNewFile :: List.replicate (n - 1) .kDuplicateFile,
         { index := hashOf b :: st.index, content := b :: st.content,
           unused := List.replicate (n - 1) b ++ st.unused }) := by
    intro hashOf st b n hn hmem
    match n, hn with
    | k + 1, _ =>
      rw [List.replicate_succ, AddFiles, hnew hashOf st b hmem]
      rw [hdups hashOf b k _ (by simp)]
      simp
  refine ⟨hdup, hnew, hall, ?_⟩
  intro hashOf st b n hn hmem hc hu
  rw [hall hashOf st b n hn hmem]
  constructor
  · simp [List.count_cons, hc]
  · simp [List.count_append, List.count_replicate, hu]

/-- Witness for C4 at a concrete instance: identity-length hash, three
identical two-byte files added to an empty repository: one blob lands in
content/, two in unused-content/. -/
theorem addFile_dedup_witness :
    AddFiles (fun b => b.length) (AddFileState.mk [] [] [])
        (List.replicate 3 (false, [1, 2])) =
      (AddResult.kNewFile :: List.replicate 2 AddResult.kDuplicateFile,
       AddFileState.mk [2] [[1, 2]] (List.replicate 2 [1, 2])) ∧
    (AddFiles (fun b => b.length) (AddFileState.mk [] [] [])
        (List.replicate 3 (false, [1, 2]))).2.content.count [1, 2] = 1 ∧
    (AddFiles (fun b => b.length) (AddFileState.mk [] [] [])
        (List.replicate 3 (false, [1, 2]))).2.unused.count [1, 2] = 2 :=
  ⟨addFile_dedup.2.2.1 (fun b => b.length) (AddFileState.mk [] [] []) [1, 2] 3
     (by norm_num) (by simp),
   (addFile_dedup.2.2.2 (fun b => b.length) (AddFileState.mk [] [] []) [1, 2] 3
     (by norm_num) (by simp) (by simp) (by simp)).1,
   (addFile_dedup.2.2.2 (fun b => b.length) (AddFileState.mk [] [] []) [1, 2] 3
     (by norm_num) (by simp) (by simp) (by simp)).2⟩

/-! ## Claims C6, C7, C8, C9, C10 -/

/-- C6: hash-index insert contract.  For the on-disk index:
`insert(id, path)` returns `true` exactly when no index entry (symlink)
for `id` existed (and then creates it, leaving every other slot
untouched); returns `false` when an entry already existed, leaving the
filesystem unchanged; and any failure other than "already present" —
including losing the creation race between the `is_symlink()` check and
`create_symlink` — raises `StorageError` (a thrown `Error`) rather than
returning a bool.  The in-memory index satisfies the same bool contract
with no failure paths. -/
theorem hash_index_insert_contract :
    (∀ (fs : Nat → IndexEntry) (id path : Nat), fs id = .absent →
      diskInsert fs (fs id) id path =
        .ok (true, fun k => if k = id then .symlink path else fs k)) ∧
    (∀ (fs : Nat → IndexEntry) (c : IndexEntry) (t id path : Nat),
      fs id = .symlink t → diskInsert fs c id path = .ok (false, fs)) ∧
    (∀ (fs : Nat → IndexEntry) (c : IndexEntry) (id path : Nat),
      fs id = .absent → c ≠ .absent →
      diskInsert fs c id path = .error .filesystemError) ∧
    (∀ (idx : List (Nat × Nat)) (id path : Nat),
      (ramInsert idx id path).1 = true ↔ lookupHash idx id = none) ∧
    (∀ (idx : List (Nat × Nat)) (id path : Nat),
      lookupHash idx id ≠ none → ramInsert idx id path = (false, idx)) := by
  refine ⟨?_, ?_, ?_, ?_, ?_⟩
  · intro fs id path habs
    simp [diskInsert, habs]
  · intro fs c t id path hsym
    simp [diskInsert, hsym]
  · intro fs c id path habs hc
    cases c with
    | absent => exact absurd rfl hc
    | symlink t => simp [diskInsert, habs]
    | nonSymlink => simp [diskInsert, habs]
  · intro idx id path
    cases hl : lookupHash idx id with
    | none => simp [ramInsert, hl]
    | some p => simp [ramInsert, hl]
  · intro idx id path hl
    cases hlk : lookupHash idx id with
    | none => exact absurd hlk hl
    | some p => simp [ramInsert, hlk]

/-- Witness for C6 at a concrete index state (slot 1 occupied by a
symlink, all others absent). -/
theorem hash_index_insert_contract_witness :
    diskInsert (fun k => if k = 1 then .symlink 9 else .absent) .absent 2 7 =
      .ok (true, fun k => if k = 2 then .symlink 7
        else (fun j => if j = 1 then IndexEntry.symlink 9 else .absent) k) ∧
    diskInsert (fun k => if k = 1 then .symlink 9 else .absent) .absent 1 7 =
      .ok (false, fun k => if k = 1 then .symlink 9 else .absent) ∧
    diskInsert (fun _ => .absent) (.symlink 5) 3 7 = .error .filesystemError ∧
    ((ramInsert [] 4 8).1 = true ↔ lookupHash [] 4 = none) ∧
    ramInsert [(4, 8)] 4 9 = (false, [(4, 8)]) :=
  ⟨hash_index_insert_contract.1 _ 2 7 (by simp),
   hash_index_insert_contract.2.1 _ .absent 9 1 7 (by simp),
   hash_index_insert_contract.2.2.1 _ (.symlink 5) 3 7 rfl (by simp),
   hash_index_insert_contract.2.2.2.1 [] 4 8,
   hash_index_insert_contract.2.2.2.2 [(4, 8)] 4 9 (by simp [lookupHash])⟩

/-- C10: the on-disk index does not always return a bool.  When the
computed index path for an ID exists but is not a symlink, both
`Contains` and `Insert` throw ("exists but is not a symlink") instead of
returning; `Contains` returns `true` iff the slot holds a symlink and
`false` iff it is absent. -/
theorem disk_index_non_symlink_errors :
    (∀ (fs : Nat → IndexEntry) (id : Nat), fs id = .nonSymlink →
      diskContains fs id = .error .existsNotSymlink) ∧
    (∀ (fs : Nat → IndexEntry) (c : IndexEntry) (id path : Nat),
      fs id = .nonSymlink → diskInsert fs c id path = .error .existsNotSymlink) ∧
    (∀ (fs : Nat → IndexEntry) (id : Nat),
      diskContains fs id = .ok true ↔ ∃ t, fs id = .symlink t) ∧
    (∀ (fs : Nat → IndexEntry) (id : Nat),
      diskContains fs id = .ok false ↔ fs id = .absent) := by
  refine ⟨?_, ?_, ?_, ?_⟩
  · intro fs id h
    simp [diskContains, h]
  · intro fs c id path h
    simp [diskInsert, h]
  · intro fs id
    cases h : fs id with
    | absent => simp [diskContains, h]
    | symlink t => simp [diskContains, h]
    | nonSymlink => simp [diskContains, h]
  · intro fs id
    cases h : fs id with
    | absent => simp [diskContains, h]
    | symlink t => simp [diskContains, h]
    | nonSymlink => simp [diskContains, h]

/-- Witness for C10 at concrete slot states. -/
theorem disk_index_non_symlink_errors_witness :
    diskContains (fun _ => .nonSymlink) 0 = .error .existsNotSymlink ∧
    diskInsert (fun _ => .nonSymlink) .absent 0 5 = .error .existsNotSymlink ∧
    (diskContains (fun _ => .symlink 3) 0 = .ok true ↔
      ∃ t, (fun _ => IndexEntry.symlink 3) 0 = .symlink t) ∧
    (diskContains (fun _ => .absent) 0 = .ok false ↔
      (fun _ => IndexEntry.absent) 0 = .absent) :=
  ⟨disk_index_non_symlink_errors.1 _ 0 rfl,
   disk_index_non_symlink_errors.2.1 _ .absent 0 5 rfl,
   disk_index_non_symlink_errors.2.2.1 _ 0,
   disk_index_non_symlink_errors.2.2.2 _ 0⟩

/-- C7 counterexample: a `file_size` failure (a thrown
`std::filesystem::filesystem_error`, e.g. the content file being
deleted between the regular-file check and the size check) is not
caught by the per-entry `catch (const frz::Error&)` handler of repair
Phase A: on this single-entry index the scrub aborts with the escaping
filesystem error instead of marking the entry bad and reporting
(0 good, 1 bad, nothing kept), refuting the claim that every error
raised while verifying one index entry is translated into marking that
entry bad. -/
theorem repair_phaseA_error_containment_counterexample :
    checkIndexSymlinks true [(1, 2, oracleStatFail)] = .error .fsError ∧
    checkIndexSymlinks true [(1, 2, oracleStatFail)] ≠ .ok (0, 1, []) := by
  refine ⟨rfl, fun hcontra => ?_⟩
  rw [show checkIndexSymlinks true [(1, 2, oracleStatFail)] =
      .error .fsError from rfl] at hcontra
  exact Except.noConfusion hcontra

/-- C7 (amended): the per-entry handler of repair Phase A catches only
`frz::Error`.  (1) A step failure thrown as `frz::Error` (opening the
content file, or the first-byte read of the smoke test) is caught and
translated into marking that entry bad: `num_bad_index_symlinks` is
incremented, `num_good_index_symlinks` is untouched, the entry is
dropped and Phase A continues.  (2) Any other escaping exception — a
`std::filesystem::filesystem_error` from the statting steps, or a
worker-thread read error during the re-hash — propagates out of the
per-entry handler, and an index containing such an entry makes Phase A
abort with an uncaught exception.  (3) When Phase A completes normally
it accounts every entry as either good or bad. -/
theorem repair_phaseA_error_containment :
    (∀ (verifyAll : Bool) (hs sz : Nat) (o : EntryOracle) (good bad : Nat),
      checkEntryBody verifyAll hs sz o = .error .frzError →
      checkEntry verifyAll hs sz o good bad = .ok (false, good, bad + 1)) ∧
    (∀ (verifyAll : Bool) (hs sz : Nat) (o : EntryOracle) (good bad : Nat)
      (e : PhaseExc), e ≠ .frzError →
      checkEntryBody verifyAll hs sz o = .error e →
      checkEntry verifyAll hs sz o good bad = .error e) ∧
    (∀ (verifyAll : Bool) (entries : List (Nat × Nat × EntryOracle))
      (hs sz : Nat) (o : EntryOracle) (e : PhaseExc),
      (hs, sz, o) ∈ entries → e ≠ .frzError →
      checkEntryBody verifyAll hs sz o = .error e →
      ∃ e2, e2 ≠ PhaseExc.frzError ∧
        checkIndexSymlinks verifyAll entries = .error e2) ∧
    (∀ (verifyAll : Bool) (entries : List (Nat × Nat × EntryOracle))
      (g b : Nat) (kept : List (Nat × Nat)),
      checkIndexSymlinks verifyAll entries = .ok (g, b, kept) →
      g + b = entries.length) := by
  have hcatch : ∀ (verifyAll : Bool) (hs sz : Nat) (o : EntryOracle)
      (good bad : Nat), checkEntryBody verifyAll hs sz o = .error .frzError →
      checkEntry verifyAll hs sz o good bad = .ok (false, good, bad + 1) := by
    intro verifyAll hs sz o good bad he
    simp [checkEntry, he]
  have hesc : ∀ (verifyAll : Bool) (hs sz : Nat) (o : EntryOracle)
      (good bad : Nat) (e : PhaseExc), e ≠ .frzError →
      checkEntryBody verifyAll hs sz o = .error e →
      checkEntry verifyAll hs sz o good bad = .error e := by
    intro verifyAll hs sz o good bad e hne he
    cases e with
    | frzError => exact absurd rfl hne
    | fsError => simp [checkEntry, he]
    | workerError => simp [checkEntry, he]
  have hnofrz : ∀ (verifyAll : Bool) (hs sz : Nat) (o : EntryOracle)
      (good bad : Nat) (e : PhaseExc),
      checkEntry verifyAll hs sz o good bad = .error e →
      e ≠ PhaseExc.frzError := by
    intro verifyAll hs sz o good bad e hce hfrz
    subst hfrz
    rcases hbody : checkEntryBody verifyAll hs sz o with eb | bb
    · cases eb with
      | frzError => simp [checkEntry, hbody] at hce
      | fsError => simp [checkEntry, hbody] at hce
      | workerError => simp [checkEntry, hbody] at hce
    · cases bb <;> simp [checkEntry, hbody] at hce
  have hone : ∀ (verifyAll : Bool) (hs sz : Nat) (o : EntryOracle)
      (r : Bool × Nat × Nat), checkEntry verifyAll hs sz o 0 0 = .ok r →
      r.2.1 + r.2.2 = 1 := by
    intro verifyAll hs sz o r hce
    unfold checkEntry at hce
    rcases hbody : checkEntryBody verifyAll hs sz o with eb | bb
    · simp only [hbody] at hce
      cases eb with
      | frzError =>
        simp only [Except.ok.injEq] at hce
        subst hce
        rfl
      | fsError => simp at hce
      | workerError => simp at hce
    · simp only [hbody] at hce
      cases bb with
      | true =>
        simp only [Except.ok.injEq] at hce
        subst hce
        rfl
      | false =>
        simp only [Except.ok.injEq] at hce
        subst hce
        rfl
  refine ⟨hcatch, hesc, ?_, ?_⟩
  · intro verifyAll entries hs sz o e hmem hne herr
    induction entries with
    | nil => simp at hmem
    | cons entry rest ih =>
      obtain ⟨hs2, sz2, o2⟩ := entry
      rcases List.mem_cons.mp hmem with hx | hx
      · injection hx with h1 hrest
        injection hrest with h2 h3
        subst h1
        subst h2
        subst h3
        refine ⟨e, hne, ?_⟩
        rw [checkIndexSymlinks]
        simp [hesc verifyAll hs sz o 0 0 e hne herr]
      · obtain ⟨e2, hne2, herr2⟩ := ih hx
        rcases hce : checkEntry verifyAll hs2 sz2 o2 0 0 with e3 | r
        · exact ⟨e3, hnofrz verifyAll hs2 sz2 o2 0 0 e3 hce, by
            rw [checkIndexSymlinks]
            simp [hce]⟩
        · exact ⟨e2, hne2, by
            rw [checkIndexSymlinks]
            simp [hce, herr2]⟩
  · intro verifyAll entries g b kept h
    induction entries generalizing g b kept with
    | nil =>
      rw [checkIndexSymlinks] at h
      simp only [Except.ok.injEq, Prod.mk.injEq] at h
      simp only [List.length_nil]
      omega
    | cons entry rest ih =>
      obtain ⟨hs2, sz2, o2⟩ := entry
      rw [checkIndexSymlinks] at h
      rcases hce : checkEntry verifyAll hs2 sz2 o2 0 0 with e3 | r
      · simp only [hce] at h
        exact absurd h (by simp)
      · simp only [hce] at h
        rcases hrs : checkIndexSymlinks verifyAll rest with e4 | rs
        · simp only [hrs] at h
          exact absurd h (by simp)
        · obtain ⟨g2, b2, kept2⟩ := rs
          simp only [hrs] at h
          simp only [Except.ok.injEq, Prod.mk.injEq] at h
          obtain ⟨hg, hb, hk⟩ := h
          have hlen := ih g2 b2 kept2 hrs
          have hcnt := hone verifyAll hs2 sz2 o2 r hce
          subst hg
          subst hb
          simp only [List.length_cons]
          omega

/-- Witness for C7 at concrete oracles: an open failure (a
`frz::Error`) is caught and marks the entry bad; a `file_size` failure
escapes the per-entry handler; a worker-thread re-hash failure aborts
Phase A; a two-entry index with non-throwing bad entries is fully
accounted. -/
theorem repair_phaseA_error_containment_witness :
    checkEntryBody false 1 2 oracleOpenFail = .error .frzError ∧
    checkEntry false 1 2 oracleOpenFail 0 0 = .ok (false, 0, 1) ∧
    checkEntry true 1 2 oracleStatFail 0 0 = .error .fsError ∧
    (∃ e2, e2 ≠ PhaseExc.frzError ∧
      checkIndexSymlinks true [(1, 2, oracleWorkerFail)] = .error e2) ∧
    checkIndexSymlinks true [(1, 2, oracleBadPath), (3, 2, oracleBadPath)] =
      .ok (0, 2, []) ∧
    0 + 2 = [(1, 2, oracleBadPath), (3, 2, oracleBadPath)].length :=
  ⟨rfl,
   repair_phaseA_error_containment.1 false 1 2 oracleOpenFail 0 0 rfl,
   repair_phaseA_error_containment.2.1 true 1 2 oracleStatFail 0 0 .fsError
     (by decide) rfl,
   repair_phaseA_error_containment.2.2.1 true [(1, 2, oracleWorkerFail)] 1 2
     oracleWorkerFail .workerError (by simp) (by decide) rfl,
   rfl,
   repair_phaseA_error_containment.2.2.2 true
     [(1, 2, oracleBadPath), (3, 2, oracleBadPath)] 0 2 [] rfl⟩

/-- C8: the `fill` and `repair` commands exit 0 iff the final
fetch-missing-content phase reports zero still-missing items: the result
structs forward the Phase C counter unchanged, a reported positive count
yields exit code 1, and an exit code of 0 can only come from a
successfully reported result with `num_still_missing == 0` (the
exception path exits 1 without a report). -/
theorem fill_repair_exit_code :
    (∀ r : PhaseCResultM,
      fillExitCode (.ok (assembleFill r)) = 0 ↔ r.num_still_missing = 0) ∧
    (∀ (r1 : PhaseAResultM) (r2 : PhaseBResultM) (r3 : PhaseCResultM),
      repairExitCode (.ok (assembleRepair r1 r2 r3)) = 0 ↔
        r3.num_still_missing = 0) ∧
    (∀ r : Except Unit FillResultM, fillExitCode r = 0 →
      ∃ res, r = .ok res ∧ res.num_still_missing = 0) ∧
    (∀ r : Except Unit RepairResultM, repairExitCode r = 0 →
      ∃ res, r = .ok res ∧ res.num_still_missing = 0) ∧
    (∀ res : FillResultM, 1 ≤ res.num_still_missing →
      fillExitCode (.ok res) = 1) ∧
    (∀ res : RepairResultM, 1 ≤ res.num_still_missing →
      repairExitCode (.ok res) = 1) := by
  refine ⟨?_, ?_, ?_, ?_, ?_, ?_⟩
  · intro r
    simp [fillExitCode, assembleFill]
  · intro r1 r2 r3
    simp [repairExitCode, assembleRepair]
  · intro r h
    match r with
    | .ok res =>
      refine ⟨res, rfl, ?_⟩
      by_contra hne
      simp [fillExitCode, hne] at h
    | .error e => simp [fillExitCode] at h
  · intro r h
    match r with
    | .ok res =>
      refine ⟨res, rfl, ?_⟩
      by_contra hne
      simp [repairExitCode, hne] at h
    | .error e => simp [repairExitCode] at h
  · intro res h
    have : res.num_still_missing ≠ 0 := by omega
    simp [fillExitCode, this]
  · intro res h
    have : res.num_still_missing ≠ 0 := by omega
    simp [repairExitCode, this]

/-- Witness for C8 at concrete results. -/
theorem fill_repair_exit_code_witness :
    (fillExitCode (.ok (assembleFill ⟨2, 0⟩)) = 0 ↔
      (PhaseCResultM.mk 2 0).num_still_missing = 0) ∧
    (repairExitCode (.ok (assembleRepair ⟨1, 0⟩ ⟨0, 0⟩ ⟨0, 3⟩)) = 0 ↔
      (PhaseCResultM.mk 0 3).num_still_missing = 0) ∧
    fillExitCode (.ok ⟨0, 2⟩) = 1 ∧
    repairExitCode (.ok ⟨1, 0, 0, 0, 0, 5⟩) = 1 :=
  ⟨fill_repair_exit_code.1 ⟨2, 0⟩,
   fill_repair_exit_code.2.1 ⟨1, 0⟩ ⟨0, 0⟩ ⟨0, 3⟩,
   fill_repair_exit_code.2.2.2.2.1 ⟨0, 2⟩ (by norm_num),
   fill_repair_exit_code.2.2.2.2.2 ⟨1, 0, 0, 0, 0, 5⟩ (by norm_num)⟩

/-- C9: the `FRZ_ASSERT(fetched)` in `FetchMissingContentDir` never
fires.  If `Contains` reports the parsed ID as missing (the slot is
absent) and some locator then returns a blob path, the subsequent index
`Insert` (performed on the unchanged index — locator fetches only write
to the content store) observes the absent slot and returns `true`. -/
theorem fetch_missing_insert_succeeds (fs : Nat → IndexEntry) (id : Nat)
    (sourceResults : List (Option Nat)) (fetchedOk : Bool)
    (fs2 : Nat → IndexEntry)
    (h : fetchMissingStep fs id sourceResults = .ok (fetchedOk, fs2)) :
    fetchedOk = true := by
  unfold fetchMissingStep at h
  rcases hc : diskContains fs id with e | b
  · simp only [hc] at h
    exact Except.noConfusion h
  · simp only [hc] at h
    cases b with
    | true =>
      simp only [Except.ok.injEq, Prod.mk.injEq] at h
      exact h.1.symm
    | false =>
      have habs : fs id = .absent := by
        rcases hfs : fs id with _ | t | _
        · rfl
        · simp [diskContains, hfs] at hc
        · simp [diskContains, hfs] at hc
      rcases hff : firstFetch sourceResults with _ | p
      · simp only [hff] at h
        simp only [Except.ok.injEq, Prod.mk.injEq] at h
        exact h.1.symm
      · have hins : diskInsert fs (fs id) id p =
            .ok (true, fun k => if k = id then .symlink p else fs k) := by
          simp [diskInsert, habs]
        simp only [hff, hins] at h
        simp only [Except.ok.injEq, Prod.mk.injEq] at h
        exact h.1.symm

/-- Witness for C9: a missing ID fetched from the second locator is
inserted successfully. -/
theorem fetch_missing_insert_succeeds_witness :
    fetchMissingStep (fun _ => IndexEntry.absent) 3 [none, some 11] =
      .ok (true,
        fun k => if k = 3 then IndexEntry.symlink 11 else IndexEntry.absent) ∧
    true = true :=
  ⟨rfl,
   fetch_missing_insert_succeeds (fun _ => IndexEntry.absent) 3 [none, some 11]
     true (fun k => if k = 3 then IndexEntry.symlink 11 else IndexEntry.absent)
     rfl⟩

end Frz

/-! Sanity checks mirroring the unit tests in src/src/hash_test.cc. -/

example : Frz.ToBase32 [0xaa] 0 = "n8".toList := by decide
example : Frz.ToBase32 [0xaa] 1 = "n9".toList := by decide
example : Frz.ToBase32 [0xaa] 2 = "na".toList := by decide
example : Frz.ToBase32 [0xaa] 4 = "n84".toList := by decide
example : Frz.ToBase32 [0xaa] 128 = "n840".toList := by decide
example : Frz.ToBase32 [0, 0, 0] 0 = "00000".toList := by decide
example : Frz.ToBase32 [0, 0, 0] 1 = "00001".toList := by decide
example : Frz.ToBase32 [0, 0, 0] 2 = "000002".toList := by decide
example : Frz.FromBase32 1 "n8".toList = some ([0xaa], 0) := by decide
example : Frz.FromBase32 1 "n9".toList = some ([0xaa], 1) := by decide
example : Frz.FromBase32 1 "na".toList = some ([0xaa], 2) := by decide
example : Frz.FromBase32 1 "n84".toList = some ([0xaa], 4) := by decide
example : Frz.FromBase32 1 "n840".toList = some ([0xaa], 128) := by decide
example : Frz.FromBase32 3 "00000".toList = some ([0, 0, 0], 0) := by decide
example : Frz.FromBase32 3 "000002".toList = some ([0, 0, 0], 2) := by decide
example : Frz.FromBase32 1 "n804".toList = none := by decide
example : Frz.FromBase32 1 "n".toList = none := by decide
